import Mathlib

/-!
# Verification of the ezWeb reactive binding engine

Shallow embedding of the binding module of `ezWeb` (the `bind` module in
`start-server.ps1`): the path model (`_parsePath` / `_pathToString`), the
deep-proxy set/delete traps with alias emission, the change-propagation
hook, the `ezFor` rebuild loop, the coalesced rebuild scheduler, the
select-model renderer and the event-handler path resolution.

Strings are represented as `List Char` in the engine-level definitions
(JS strings are sequences of code units; none of the verified properties
depend on surrogate-pair behaviour).  Every recursive scanner is written
with an explicit fuel argument (the fuel is always instantiated with a
provably sufficient bound), so all definitions evaluate by `decide`.
-/

namespace EzWeb

/-! ## Character classes (JS regexes used by the path parser) -/

/-- JS `/[0-9]/`. -/
def isDigitCh (c : Char) : Bool := decide (48 ≤ c.toNat ∧ c.toNat ≤ 57)

/-- JS `/[A-Za-z]/` (ASCII letters only, as in the source regexes). -/
def isAsciiLetter (c : Char) : Bool :=
  decide ((65 ≤ c.toNat ∧ c.toNat ≤ 90) ∨ (97 ≤ c.toNat ∧ c.toNat ≤ 122))

/-- JS `/[A-Za-z_$]/` — `isIdentStart` in `_parsePath`. -/
def isIdentStart (c : Char) : Bool :=
  isAsciiLetter c || decide (c.toNat = 95) || decide (c.toNat = 36)

/-- JS `/[A-Za-z0-9_$]/` — `isIdentChar` in `_parsePath`. -/
def isIdentChar (c : Char) : Bool := isIdentStart c || isDigitCh c

/-- JS `/\s/`: the WhiteSpace and LineTerminator code points. -/
def jsWhitespace (c : Char) : Bool :=
  decide (c.toNat = 9 ∨ c.toNat = 10 ∨ c.toNat = 11 ∨ c.toNat = 12 ∨ c.toNat = 13 ∨
    c.toNat = 32 ∨ c.toNat = 160 ∨ c.toNat = 0x1680 ∨
    (0x2000 ≤ c.toNat ∧ c.toNat ≤ 0x200a) ∨ c.toNat = 0x2028 ∨ c.toNat = 0x2029 ∨
    c.toNat = 0x202f ∨ c.toNat = 0x205f ∨ c.toNat = 0x3000 ∨ c.toNat = 0xfeff)

/-- The single-quote character (code 39). -/
def squote : Char := Char.ofNat 39

theorem isDigitCh_not_ws {c : Char} (h : isDigitCh c = true) : jsWhitespace c = false := by
  simp only [isDigitCh, decide_eq_true_eq] at h
  simp only [jsWhitespace, decide_eq_false_iff_not]
  omega

theorem isIdentChar_not_ws {c : Char} (h : isIdentChar c = true) : jsWhitespace c = false := by
  simp only [isIdentChar, isIdentStart, isAsciiLetter, isDigitCh, Bool.or_eq_true,
    decide_eq_true_eq] at h
  simp only [jsWhitespace, decide_eq_false_iff_not]
  omega

/-! ## Decimal numerals (JS `String(number)` and `parseInt(s, 10)`) -/

/-- The decimal digit character for `m` (used for `m = n % 10 < 10`). -/
def digitChar (m : Nat) : Char :=
  if m = 0 then '0' else if m = 1 then '1' else if m = 2 then '2'
  else if m = 3 then '3' else if m = 4 then '4' else if m = 5 then '5'
  else if m = 6 then '6' else if m = 7 then '7' else if m = 8 then '8' else '9'

/-- Fuelled digit writer: prepends the decimal digits of `n` to `acc`.
Fuel `n` itself is always sufficient since `n / 10 < n` for `n ≠ 0`. -/
def natToCharsAux : Nat → Nat → List Char → List Char
  | 0, _, acc => acc
  | fuel + 1, n, acc =>
    if n = 0 then acc else natToCharsAux fuel (n / 10) (digitChar (n % 10) :: acc)

/-- Decimal rendering of a natural number: JS `String(k)` for an integer
key.  Exact model of ECMAScript `ToString` only on magnitudes below
`10^21`; from `10^21` on, JS switches to exponential notation
(`String(1e21) = "1e+21"`), which this definition does not produce.
Theorems about numeric keys therefore restrict them to the safe-integer
range (see `jsSafeKeyB`), where the two agree. -/
def natRepr (n : Nat) : List Char := if n = 0 then ['0'] else natToCharsAux n n []

/-- JS `parseInt(num, 10)` restricted to a run of decimal digits.  Exact
model only for runs whose value is at most `2^53`: beyond that JS rounds
to the nearest double, while this definition stays exact.  Theorems about
numeric keys therefore restrict them to the safe-integer range (see
`jsSafeKeyB`). -/
def digitsToNat (l : List Char) : Nat := l.foldl (fun a c => a * 10 + (c.toNat - 48)) 0

theorem digitChar_isDigit (m : Nat) : isDigitCh (digitChar m) = true := by
  unfold digitChar
  repeat' split
  all_goals decide

theorem digitChar_toNat {m : Nat} (h : m < 10) : (digitChar m).toNat = 48 + m := by
  unfold digitChar
  repeat' split
  all_goals (first
    | (subst_vars; decide)
    | (rename_i h0 h1 h2 h3 h4 h5 h6 h7 h8
       have hm : m = 9 := by omega
       subst hm; decide))

theorem natToCharsAux_congr :
    ∀ (n f₁ f₂ : Nat) (acc : List Char), n ≤ f₁ → n ≤ f₂ →
      natToCharsAux f₁ n acc = natToCharsAux f₂ n acc := by
  intro n
  induction n using Nat.strong_induction_on with
  | _ n ih =>
    intro f₁ f₂ acc h₁ h₂
    by_cases hn : n = 0
    · subst hn
      cases f₁ <;> cases f₂ <;> simp [natToCharsAux]
    · have hf₁ : ∃ g₁, f₁ = g₁ + 1 := ⟨f₁ - 1, by omega⟩
      have hf₂ : ∃ g₂, f₂ = g₂ + 1 := ⟨f₂ - 1, by omega⟩
      obtain ⟨g₁, rfl⟩ := hf₁
      obtain ⟨g₂, rfl⟩ := hf₂
      simp only [natToCharsAux, hn, if_false]
      exact ih (n / 10) (by omega) g₁ g₂ _ (by omega) (by omega)

theorem natToCharsAux_append :
    ∀ (n : Nat) (acc : List Char), natToCharsAux n n acc = natToCharsAux n n [] ++ acc := by
  intro n
  induction n using Nat.strong_induction_on with
  | _ n ih =>
    intro acc
    by_cases hn : n = 0
    · subst hn; simp [natToCharsAux]
    · have hstep : ∀ a, natToCharsAux n n a
          = natToCharsAux (n / 10) (n / 10) (digitChar (n % 10) :: a) := by
        intro a
        have hn1 : ∃ g, n = g + 1 := ⟨n - 1, by omega⟩
        obtain ⟨g, rfl⟩ := hn1
        simp only [natToCharsAux, hn, if_false]
        exact natToCharsAux_congr _ _ _ _ (by omega) (by omega)
      rw [hstep acc, hstep []]
      rw [ih (n / 10) (by omega) (digitChar (n % 10) :: acc),
          ih (n / 10) (by omega) [digitChar (n % 10)]]
      simp

theorem natToCharsAux_all_digit :
    ∀ (n : Nat) (acc : List Char), (∀ c ∈ acc, isDigitCh c = true) →
      ∀ c ∈ natToCharsAux n n acc, isDigitCh c = true := by
  intro n
  induction n using Nat.strong_induction_on with
  | _ n ih =>
    intro acc hacc c hc
    by_cases hn : n = 0
    · subst hn; simp [natToCharsAux] at hc; exact hacc c hc
    · have hn1 : ∃ g, n = g + 1 := ⟨n - 1, by omega⟩
      obtain ⟨g, rfl⟩ := hn1
      simp only [natToCharsAux, hn, if_false] at hc
      rw [show natToCharsAux g ((g + 1) / 10) (digitChar ((g + 1) % 10) :: acc)
            = natToCharsAux ((g + 1) / 10) ((g + 1) / 10)
                (digitChar ((g + 1) % 10) :: acc) from
          natToCharsAux_congr _ _ _ _ (by omega) (by omega)] at hc
      refine ih ((g + 1) / 10) (by omega) _ ?_ c hc
      intro d hd
      rcases List.mem_cons.mp hd with h | h
      · subst h; exact digitChar_isDigit _
      · exact hacc d h

theorem natRepr_all_digit (n : Nat) : ∀ c ∈ natRepr n, isDigitCh c = true := by
  unfold natRepr
  split
  · intro c hc; simp at hc; subst hc; decide
  · exact natToCharsAux_all_digit n [] (by simp)

theorem natToCharsAux_ne_nil {n : Nat} (hn : n ≠ 0) : natToCharsAux n n [] ≠ [] := by
  have hn1 : ∃ g, n = g + 1 := ⟨n - 1, by omega⟩
  obtain ⟨g, rfl⟩ := hn1
  simp only [natToCharsAux, hn, if_false]
  rw [natToCharsAux_congr _ _ ((g + 1) / 10) _ (by omega) (by omega),
    natToCharsAux_append]
  simp

theorem natRepr_ne_nil (n : Nat) : natRepr n ≠ [] := by
  unfold natRepr
  split
  · simp
  · exact natToCharsAux_ne_nil (by assumption)

theorem digitsToNat_append (l₁ l₂ : List Char) :
    digitsToNat (l₁ ++ l₂)
      = l₂.foldl (fun a c => a * 10 + (c.toNat - 48)) (digitsToNat l₁) := by
  simp [digitsToNat, List.foldl_append]

theorem digitsToNat_natToChars :
    ∀ (n : Nat) (a : Nat),
      (natToCharsAux n n []).foldl (fun a c => a * 10 + (c.toNat - 48)) a
        = a * 10 ^ (natToCharsAux n n []).length + n := by
  intro n
  induction n using Nat.strong_induction_on with
  | _ n ih =>
    intro a
    by_cases hn : n = 0
    · subst hn; simp [natToCharsAux]
    · have hn1 : ∃ g, n = g + 1 := ⟨n - 1, by omega⟩
      obtain ⟨g, rfl⟩ := hn1
      have hstep : natToCharsAux (g + 1) (g + 1) []
          = natToCharsAux ((g+1) / 10) ((g+1) / 10) [] ++ [digitChar ((g+1) % 10)] := by
        simp only [natToCharsAux, hn, if_false]
        rw [natToCharsAux_congr _ _ ((g+1) / 10) _ (by omega) (by omega),
          natToCharsAux_append]
      rw [hstep, List.foldl_append, ih ((g+1) / 10) (by omega) a]
      simp only [List.foldl_cons, List.foldl_nil, List.length_append, List.length_singleton]
      rw [digitChar_toNat (by omega)]
      have : (48 + (g + 1) % 10) - 48 = (g + 1) % 10 := by omega
      rw [this, pow_succ]
      have hdm : 10 * ((g + 1) / 10) + (g + 1) % 10 = g + 1 := Nat.div_add_mod _ 10
      ring_nf
      omega

/-- `parseInt` is a left inverse of decimal rendering. -/
theorem digitsToNat_natRepr (n : Nat) : digitsToNat (natRepr n) = n := by
  unfold natRepr
  split
  · subst_vars; decide
  · have := digitsToNat_natToChars n 0
    simpa [digitsToNat] using this

/-! ## The path model: keys and `_parsePath` -/

/-- A path key: JS pushes either a string (identifier or quoted key) or a
number (`parseInt` of a digit run) onto the parsed path array. -/
inductive PKey where
  | str : String → PKey
  | num : Nat → PKey
  deriving DecidableEq, Repr

/-- The inner quoted-key scanner of `_parsePath`: runs from just after the
opening quote `q`, accumulating `buf` (JS `buf += …`), consuming a
backslash together with the character after it, and stopping at (and
consuming) the first unescaped `q`.  Returns the accumulated key text and
the rest of the input. -/
def scanQuoted (q : Char) : List Char → List Char → (List Char × List Char)
  | [], buf => (buf, [])
  | [c], buf =>
    if c = q then (buf, [])
    else if c = '\\' then (buf ++ ['\\'], [])
    else (buf ++ [c], [])
  | c :: d :: ds, buf =>
    if c = q then (buf, d :: ds)
    else if c = '\\' then scanQuoted q ds (buf ++ [d])
    else scanQuoted q (d :: ds) (buf ++ [c])

theorem scanQuoted_rest_le (q : Char) :
    ∀ (n : Nat) (l buf : List Char), l.length = n →
      (scanQuoted q l buf).2.length ≤ l.length := by
  intro n
  induction n using Nat.strong_induction_on with
  | _ n ih =>
    intro l buf hl
    match l with
    | [] => exact le_rfl
    | [c] =>
      simp only [scanQuoted]
      split
      · simp
      · split <;> simp
    | c :: d :: ds =>
      simp only [List.length_cons] at hl
      simp only [scanQuoted]
      split
      · simp
      · split
        · have := ih ds.length (by omega) ds (buf ++ [d]) rfl
          simp only [List.length_cons]
          omega
        · have := ih (d :: ds).length (by simp; omega) (d :: ds) (buf ++ [c]) rfl
          simp only [List.length_cons] at this ⊢
          omega

/-- JS `s.dropWhile(\s)` step used after `[`, after a closing quote and
after a digit run. -/
def skipWS (l : List Char) : List Char := l.dropWhile jsWhitespace

/-- The `if (s[i] === "]") i++` step. -/
def skipRBracket : List Char → List Char
  | c :: cs => if c = ']' then cs else c :: cs
  | [] => []

theorem skipWS_le (l : List Char) : (skipWS l).length ≤ l.length := by
  unfold skipWS
  induction l with
  | nil => simp
  | cons c cs ih =>
    by_cases h : jsWhitespace c
    · simp [List.dropWhile_cons, h]; omega
    · simp [List.dropWhile_cons, h]

theorem skipRBracket_le (l : List Char) : (skipRBracket l).length ≤ l.length := by
  match l with
  | [] => simp [skipRBracket]
  | c :: cs =>
    simp only [skipRBracket]
    split <;> simp

/-- The bracket branch of `_parsePath`: everything after a consumed `[`.
Skips whitespace; a quote starts the quoted-key scan (always pushing the
accumulated text, then skipping whitespace and one optional `]`);
otherwise a digit run is read (pushed via `parseInt` only when nonempty),
again followed by whitespace and one optional `]`. -/
def parseBracket (l : List Char) : Option PKey × List Char :=
  let l1 := skipWS l
  match l1 with
  | [] => (none, [])
  | c :: cs =>
    if c = '"' ∨ c = squote then
      let res := scanQuoted c cs []
      (some (PKey.str (String.mk res.1)), skipRBracket (skipWS res.2))
    else
      let digits := l1.takeWhile isDigitCh
      let rest := skipRBracket (skipWS (l1.dropWhile isDigitCh))
      (if digits.isEmpty then none else some (PKey.num (digitsToNat digits)), rest)

theorem dropWhile_length_le (p : Char → Bool) (l : List Char) :
    (l.dropWhile p).length ≤ l.length := by
  induction l with
  | nil => simp
  | cons c cs ih =>
    by_cases h : p c
    · simp [List.dropWhile_cons, h]; omega
    · simp [List.dropWhile_cons, h]

theorem parseBracket_rest_le (l : List Char) :
    (parseBracket l).2.length ≤ l.length := by
  unfold parseBracket
  have h1 : (skipWS l).length ≤ l.length := skipWS_le l
  match hm : skipWS l with
  | [] => simp
  | c :: cs =>
    rw [hm] at h1
    show ((if c = '"' ∨ c = squote then
        (some (PKey.str (String.mk (scanQuoted c cs []).1)),
          skipRBracket (skipWS (scanQuoted c cs []).2))
      else
        (if ((c :: cs).takeWhile isDigitCh).isEmpty then none
          else some (PKey.num (digitsToNat ((c :: cs).takeWhile isDigitCh))),
          skipRBracket (skipWS ((c :: cs).dropWhile isDigitCh))))).2.length ≤ l.length
    split
    · show (skipRBracket (skipWS (scanQuoted c cs []).2)).length ≤ l.length
      have h2 := scanQuoted_rest_le c cs.length cs [] rfl
      have h3 := skipWS_le (scanQuoted c cs []).2
      have h4 := skipRBracket_le (skipWS (scanQuoted c cs []).2)
      simp only [List.length_cons] at h1
      omega
    · show (skipRBracket (skipWS ((c :: cs).dropWhile isDigitCh))).length ≤ l.length
      have h2 := dropWhile_length_le isDigitCh (c :: cs)
      have h3 := skipWS_le ((c :: cs).dropWhile isDigitCh)
      have h4 := skipRBracket_le (skipWS ((c :: cs).dropWhile isDigitCh))
      simp only [List.length_cons] at h1 h2 ⊢
      omega

/-- Fuelled main loop of `_parsePath`.  Each iteration of the JS `while`
loop consumes at least one character, so fuel `l.length` is always
sufficient.  `.` is skipped; `[` dispatches to `parseBracket`; an
identifier-start character reads an identifier run; any other character
is skipped. -/
def parseCharsF : Nat → List Char → List PKey
  | 0, _ => []
  | _, [] => []
  | fuel + 1, c :: cs =>
    if c = '.' then parseCharsF fuel cs
    else if c = '[' then
      match (parseBracket cs).1 with
      | some k => k :: parseCharsF fuel (parseBracket cs).2
      | none => parseCharsF fuel (parseBracket cs).2
    else if isIdentStart c then
      PKey.str (String.mk ((c :: cs).takeWhile isIdentChar))
        :: parseCharsF fuel ((c :: cs).dropWhile isIdentChar)
    else parseCharsF fuel cs

/-- The parsed form of a character sequence (fuel instantiated at the
sufficient bound). -/
def parseChars (l : List Char) : List PKey := parseCharsF l.length l

theorem parseCharsF_congr :
    ∀ (n : Nat) (l : List Char), l.length = n → ∀ f₁ f₂, n ≤ f₁ → n ≤ f₂ →
      parseCharsF f₁ l = parseCharsF f₂ l := by
  intro n
  induction n using Nat.strong_induction_on with
  | _ n ih =>
    intro l hl f₁ f₂ h₁ h₂
    match l with
    | [] => cases f₁ <;> cases f₂ <;> simp [parseCharsF]
    | c :: cs =>
      simp only [List.length_cons] at hl
      have hf₁ : ∃ g₁, f₁ = g₁ + 1 := ⟨f₁ - 1, by omega⟩
      have hf₂ : ∃ g₂, f₂ = g₂ + 1 := ⟨f₂ - 1, by omega⟩
      obtain ⟨g₁, rfl⟩ := hf₁
      obtain ⟨g₂, rfl⟩ := hf₂
      simp only [parseCharsF]
      have hcs : cs.length < n := by omega
      split
      · exact ih cs.length hcs cs rfl g₁ g₂ (by omega) (by omega)
      · split
        · have hb := parseBracket_rest_le cs
          split
          · rw [ih (parseBracket cs).2.length (by omega) _ rfl g₁ g₂ (by omega) (by omega)]
          · exact ih (parseBracket cs).2.length (by omega) _ rfl g₁ g₂ (by omega) (by omega)
        · split
          · have hd : ((c :: cs).dropWhile isIdentChar).length ≤ cs.length := by
              have hic : isIdentChar c = true := by
                rename_i hstart
                simp [isIdentChar, hstart]
              rw [List.dropWhile_cons]
              simp only [hic, if_true]
              exact dropWhile_length_le _ _
            rw [ih ((c :: cs).dropWhile isIdentChar).length (by omega) _ rfl g₁ g₂
              (by omega) (by omega)]
          · exact ih cs.length hcs cs rfl g₁ g₂ (by omega) (by omega)

theorem parseCharsF_eq {f : Nat} {l : List Char} (h : l.length ≤ f) :
    parseCharsF f l = parseChars l :=
  parseCharsF_congr l.length l rfl f l.length h le_rfl

/-! Step lemmas for `parseChars`, mirroring one iteration of the loop. -/

theorem parseChars_nil : parseChars [] = [] := rfl

theorem parseChars_dot (cs : List Char) : parseChars ('.' :: cs) = parseChars cs := by
  show parseCharsF (cs.length + 1) ('.' :: cs) = parseChars cs
  have hstep : parseCharsF (cs.length + 1) ('.' :: cs) = parseCharsF cs.length cs := by
    simp [parseCharsF]
  rw [hstep]
  exact parseCharsF_eq le_rfl

theorem parseChars_lbracket (cs : List Char) :
    parseChars ('[' :: cs)
      = match (parseBracket cs).1 with
        | some k => k :: parseChars (parseBracket cs).2
        | none => parseChars (parseBracket cs).2 := by
  show parseCharsF (cs.length + 1) ('[' :: cs) = _
  have hb := parseBracket_rest_le cs
  have hstep : parseCharsF (cs.length + 1) ('[' :: cs)
      = match (parseBracket cs).1 with
        | some k => k :: parseCharsF cs.length (parseBracket cs).2
        | none => parseCharsF cs.length (parseBracket cs).2 := by
    simp [parseCharsF]
  rw [hstep]
  split <;> rw [parseCharsF_eq (by omega)]

theorem parseChars_ident {c : Char} (cs : List Char)
    (hdot : ¬ c = '.') (hbr : ¬ c = '[') (hid : isIdentStart c = true) :
    parseChars (c :: cs)
      = PKey.str (String.mk ((c :: cs).takeWhile isIdentChar))
          :: parseChars ((c :: cs).dropWhile isIdentChar) := by
  show parseCharsF (cs.length + 1) (c :: cs) = _
  simp only [parseCharsF]
  rw [if_neg hdot, if_neg hbr, if_pos hid]
  have hic : isIdentChar c = true := by simp [isIdentChar, hid]
  have hd : ((c :: cs).dropWhile isIdentChar).length ≤ cs.length := by
    rw [List.dropWhile_cons]
    simp only [hic, if_true]
    exact dropWhile_length_le _ _
  rw [parseCharsF_eq (by omega)]

theorem parseChars_other {c : Char} (cs : List Char)
    (hdot : ¬ c = '.') (hbr : ¬ c = '[') (hid : ¬ isIdentStart c = true) :
    parseChars (c :: cs) = parseChars cs := by
  show parseCharsF (cs.length + 1) (c :: cs) = _
  simp only [parseCharsF]
  rw [if_neg hdot, if_neg hbr, if_neg hid]
  exact parseCharsF_eq le_rfl

/-- JS `String.prototype.trim` (drops `\s` from both ends). -/
def jsTrim (l : List Char) : List Char :=
  ((l.dropWhile jsWhitespace).reverse.dropWhile jsWhitespace).reverse

/-- `_parsePath`: trim, then run the scanning loop. -/
def _parsePath (s : String) : List PKey := parseChars (jsTrim s.data)

/-! ## `_pathToString` -/

/-- Lowercase hexadecimal digit, as produced by `JSON.stringify` control
escapes. -/
def hexDigitChar (m : Nat) : Char :=
  if m < 10 then digitChar m
  else if m = 10 then 'a' else if m = 11 then 'b' else if m = 12 then 'c'
  else if m = 13 then 'd' else if m = 14 then 'e' else 'f'

/-- `JSON.stringify` escaping of one character inside a string literal. -/
def jsonEscapeChar (c : Char) : List Char :=
  if c = '"' then ['\\', '"']
  else if c = '\\' then ['\\', '\\']
  else if c.toNat = 8 then ['\\', 'b']
  else if c.toNat = 12 then ['\\', 'f']
  else if c.toNat = 10 then ['\\', 'n']
  else if c.toNat = 13 then ['\\', 'r']
  else if c.toNat = 9 then ['\\', 't']
  else if c.toNat < 32 then
    ['\\', 'u', '0', '0', hexDigitChar (c.toNat / 16), hexDigitChar (c.toNat % 16)]
  else [c]

/-- Body of a `JSON.stringify` string literal. -/
def jsonEscChars (s : List Char) : List Char := (s.map jsonEscapeChar).flatten

/-- `JSON.stringify(ks)` for a string: quoted, escaped. -/
def jsonQuoteChars (s : List Char) : List Char := '"' :: jsonEscChars s ++ ['"']

/-- JS `/^\d+$/.test(s)`. -/
def isDigitString (s : String) : Bool := decide (s.data ≠ []) && s.data.all isDigitCh

/-- JS `/^[A-Za-z_$][A-Za-z0-9_$]*$/.test(s)`. -/
def isIdentString (s : String) : Bool :=
  match s.data with
  | [] => false
  | c :: cs => isIdentStart c && cs.all isIdentChar

/-- One iteration of the `_pathToString` loop: append the rendering of key
`k` to the accumulated string `acc` (JS `s +=`).  Numbers and digit-only
strings render as `[k]`; identifier-shaped strings as `.k` (without the
dot when `acc` is still empty); everything else as `[JSON.stringify(k)]`. -/
def keyToString (acc : List Char) (k : PKey) : List Char :=
  match k with
  | PKey.num n => acc ++ ('[' :: natRepr n ++ [']'])
  | PKey.str ks =>
    if isDigitString ks then acc ++ ('[' :: ks.data ++ [']'])
    else if isIdentString ks then
      (if acc = [] then ks.data else acc ++ ('.' :: ks.data))
    else acc ++ ('[' :: jsonQuoteChars ks.data ++ [']'])

/-- `_pathToString` over the character-list representation. -/
def pathToChars (p : List PKey) : List Char := p.foldl keyToString []

/-- `_pathToString`: render a path array to its canonical string form. -/
def _pathToString (p : List PKey) : String := String.mk (pathToChars p)

/-! ## Chunk decomposition of the canonical form -/

/-- Rendering of key `k` in non-initial position. -/
def chunkTail : PKey → List Char
  | PKey.num n => '[' :: natRepr n ++ [']']
  | PKey.str ks =>
    if isDigitString ks then '[' :: ks.data ++ [']']
    else if isIdentString ks then '.' :: ks.data
    else '[' :: jsonQuoteChars ks.data ++ [']']

/-- Rendering of key `k` in initial position (identifier keys lack the
leading dot). -/
def chunkHead : PKey → List Char
  | PKey.num n => '[' :: natRepr n ++ [']']
  | PKey.str ks =>
    if isDigitString ks then '[' :: ks.data ++ [']']
    else if isIdentString ks then ks.data
    else '[' :: jsonQuoteChars ks.data ++ [']']

/-- Concatenated non-initial renderings. -/
def joinTails (p : List PKey) : List Char := (p.map chunkTail).flatten

theorem keyToString_of_ne_nil {acc : List Char} (h : acc ≠ []) (k : PKey) :
    keyToString acc k = acc ++ chunkTail k := by
  match k with
  | PKey.num n => rfl
  | PKey.str ks =>
    simp only [keyToString, chunkTail]
    split
    · rfl
    · split
      · simp [h]
      · rfl

theorem keyToString_nil (k : PKey) : keyToString [] k = chunkHead k := by
  match k with
  | PKey.num n => rfl
  | PKey.str ks =>
    simp only [keyToString, chunkHead]
    split
    · rfl
    · split
      · simp
      · rfl

theorem isIdentString_data_ne_nil {ks : String} (h : isIdentString ks = true) :
    ks.data ≠ [] := by
  unfold isIdentString at h
  match hd : ks.data with
  | [] => rw [hd] at h; exact absurd h (by simp)
  | c :: cs => simp

theorem chunkTail_ne_nil (k : PKey) : chunkTail k ≠ [] := by
  match k with
  | PKey.num n => simp [chunkTail]
  | PKey.str ks =>
    simp only [chunkTail]
    split
    · simp
    · split
      · simp
      · simp [jsonQuoteChars]

theorem chunkHead_ne_nil (k : PKey) : chunkHead k ≠ [] := by
  match k with
  | PKey.num n => simp [chunkHead]
  | PKey.str ks =>
    simp only [chunkHead]
    split
    · simp
    · split
      · exact isIdentString_data_ne_nil (by assumption)
      · simp [jsonQuoteChars]

theorem foldl_keyToString_ne_nil :
    ∀ (p : List PKey) (acc : List Char), acc ≠ [] →
      List.foldl keyToString acc p = acc ++ joinTails p := by
  intro p
  induction p with
  | nil => intro acc h; simp [joinTails]
  | cons k ps ih =>
    intro acc h
    rw [List.foldl_cons, keyToString_of_ne_nil h]
    rw [ih (acc ++ chunkTail k) (by simp [h])]
    simp [joinTails]

theorem pathToChars_cons (k : PKey) (p : List PKey) :
    pathToChars (k :: p) = chunkHead k ++ joinTails p := by
  unfold pathToChars
  rw [List.foldl_cons, keyToString_nil]
  exact foldl_keyToString_ne_nil p (chunkHead k) (chunkHead_ne_nil k)

theorem pathToChars_nil : pathToChars [] = [] := rfl

/-! ## List and character helper lemmas -/

theorem takeWhile_cons_pos {p : Char → Bool} {c : Char} (cs : List Char)
    (h : p c = true) : (c :: cs).takeWhile p = c :: cs.takeWhile p := by
  simp [List.takeWhile_cons, h]

theorem takeWhile_cons_neg {p : Char → Bool} {c : Char} (cs : List Char)
    (h : p c = false) : (c :: cs).takeWhile p = [] := by
  simp [List.takeWhile_cons, h]

theorem dropWhile_cons_pos {p : Char → Bool} {c : Char} (cs : List Char)
    (h : p c = true) : (c :: cs).dropWhile p = cs.dropWhile p := by
  simp [List.dropWhile_cons, h]

theorem dropWhile_cons_neg {p : Char → Bool} {c : Char} (cs : List Char)
    (h : p c = false) : (c :: cs).dropWhile p = c :: cs := by
  simp [List.dropWhile_cons, h]

theorem takeWhile_append_all {p : Char → Bool} :
    ∀ {l₁ : List Char} (l₂ : List Char), (∀ c ∈ l₁, p c = true) →
      (l₁ ++ l₂).takeWhile p = l₁ ++ l₂.takeWhile p := by
  intro l₁
  induction l₁ with
  | nil => intro l₂ _; simp
  | cons c cs ih =>
    intro l₂ h
    rw [List.cons_append, takeWhile_cons_pos _ (h c (by simp)), ih l₂ (by intro d hd; exact h d (by simp [hd]))]
    rfl

theorem dropWhile_append_all {p : Char → Bool} :
    ∀ {l₁ : List Char} (l₂ : List Char), (∀ c ∈ l₁, p c = true) →
      (l₁ ++ l₂).dropWhile p = l₂.dropWhile p := by
  intro l₁
  induction l₁ with
  | nil => intro l₂ _; simp
  | cons c cs ih =>
    intro l₂ h
    rw [List.cons_append, dropWhile_cons_pos _ (h c (by simp))]
    exact ih l₂ (by intro d hd; exact h d (by simp [hd]))

theorem head?_mem {l : List Char} {c : Char} (h : l.head? = some c) : c ∈ l := by
  match l with
  | [] => simp at h
  | d :: ds => simp at h; simp [h]

theorem head?_append_ne {l₁ : List Char} (l₂ : List Char) (h : l₁ ≠ []) :
    (l₁ ++ l₂).head? = l₁.head? := by
  match l₁ with
  | [] => exact absurd rfl h
  | c :: cs => rfl

theorem dropWhile_eq_self_of_head {p : Char → Bool} {l : List Char}
    (h : ∀ c, l.head? = some c → p c = false) : l.dropWhile p = l := by
  match l with
  | [] => rfl
  | c :: cs => exact dropWhile_cons_neg cs (h c rfl)

/-- A character equality implies the corresponding code-point equality. -/
theorem char_eq_toNat {c d : Char} (h : c = d) : c.toNat = d.toNat := by rw [h]

theorem isDigitCh_ne_quote {c : Char} (h : isDigitCh c = true) :
    ¬ (c = '"' ∨ c = squote) := by
  intro hc
  rcases hc with hc | hc <;> subst hc <;> exact absurd h (by decide)

theorem isIdentStart_ne_dot {c : Char} (h : isIdentStart c = true) : ¬ c = '.' := by
  intro hc; subst hc; exact absurd h (by decide)

theorem isIdentStart_ne_lbracket {c : Char} (h : isIdentStart c = true) : ¬ c = '[' := by
  intro hc; subst hc; exact absurd h (by decide)

theorem isIdentStart_not_ws {c : Char} (h : isIdentStart c = true) :
    jsWhitespace c = false := by
  refine isIdentChar_not_ws ?_
  simp [isIdentChar, h]

/-! ## Good keys and the quoted-scan lemma -/

/-- Keys whose canonical rendering re-parses to the same key: every
number, and every string that is not an all-digit string (those
canonicalize to numeric indices) and contains no control character
(those go through escape forms the parser does not undo). -/
def goodKeyB : PKey → Bool
  | PKey.num _ => true
  | PKey.str s => !isDigitString s && s.data.all (fun c => decide (32 ≤ c.toNat))

theorem jsonEscapeChar_of_plain {c : Char} (h : 32 ≤ c.toNat)
    (hq : ¬ c = '"') (hb : ¬ c = '\\') : jsonEscapeChar c = [c] := by
  unfold jsonEscapeChar
  rw [if_neg hq, if_neg hb, if_neg (by omega), if_neg (by omega), if_neg (by omega),
    if_neg (by omega), if_neg (by omega), if_neg (by omega)]

theorem scanQuoted_esc :
    ∀ (s : List Char), (∀ c ∈ s, 32 ≤ c.toNat) →
      ∀ (buf tail : List Char),
        scanQuoted '"' (jsonEscChars s ++ '"' :: tail) buf = (buf ++ s, tail) := by
  intro s
  induction s with
  | nil =>
    intro _ buf tail
    match tail with
    | [] => simp [jsonEscChars, scanQuoted]
    | t :: ts => simp [jsonEscChars, scanQuoted]
  | cons c cs ih =>
    intro hge buf tail
    have hc : 32 ≤ c.toNat := hge c (by simp)
    have hcs : ∀ d ∈ cs, 32 ≤ d.toNat := fun d hd => hge d (by simp [hd])
    by_cases hq : c = '"'
    · subst hq
      have : jsonEscChars ('"' :: cs) = '\\' :: '"' :: jsonEscChars cs := by
        simp [jsonEscChars, jsonEscapeChar]
      rw [this]
      show scanQuoted '"' ('\\' :: '"' :: (jsonEscChars cs ++ '"' :: tail)) buf = _
      rw [show scanQuoted '"' ('\\' :: '"' :: (jsonEscChars cs ++ '"' :: tail)) buf
            = scanQuoted '"' (jsonEscChars cs ++ '"' :: tail) (buf ++ ['"']) by
        simp [scanQuoted]]
      rw [ih hcs (buf ++ ['"']) tail]
      simp
    · by_cases hb : c = '\\'
      · subst hb
        have : jsonEscChars ('\\' :: cs) = '\\' :: '\\' :: jsonEscChars cs := by
          simp [jsonEscChars, jsonEscapeChar]
        rw [this]
        show scanQuoted '"' ('\\' :: '\\' :: (jsonEscChars cs ++ '"' :: tail)) buf = _
        rw [show scanQuoted '"' ('\\' :: '\\' :: (jsonEscChars cs ++ '"' :: tail)) buf
              = scanQuoted '"' (jsonEscChars cs ++ '"' :: tail) (buf ++ ['\\']) by
          simp [scanQuoted]]
        rw [ih hcs (buf ++ ['\\']) tail]
        simp
      · have : jsonEscChars (c :: cs) = c :: jsonEscChars cs := by
          simp [jsonEscChars, jsonEscapeChar_of_plain hc hq hb]
        rw [this]
        show scanQuoted '"' (c :: (jsonEscChars cs ++ '"' :: tail)) buf = _
        match hrest : jsonEscChars cs ++ '"' :: tail with
        | [] => simp at hrest
        | e :: es =>
          rw [show scanQuoted '"' (c :: e :: es) buf
                = scanQuoted '"' (e :: es) (buf ++ [c]) by
            simp only [scanQuoted]
            rw [if_neg hq, if_neg hb]]
          rw [← hrest, ih hcs (buf ++ [c]) tail]
          simp

/-! ## Evaluating `parseBracket` on rendered chunks -/

theorem parseBracket_cons (c : Char) (cs : List Char) (h : jsWhitespace c = false) :
    parseBracket (c :: cs)
      = if c = '"' ∨ c = squote then
          (some (PKey.str (String.mk (scanQuoted c cs []).1)),
            skipRBracket (skipWS (scanQuoted c cs []).2))
        else
          (if ((c :: cs).takeWhile isDigitCh).isEmpty then none
            else some (PKey.num (digitsToNat ((c :: cs).takeWhile isDigitCh))),
            skipRBracket (skipWS ((c :: cs).dropWhile isDigitCh))) := by
  unfold parseBracket
  have hskip : skipWS (c :: cs) = c :: cs := dropWhile_cons_neg cs h
  rw [hskip]

theorem parseBracket_num (n : Nat) (rest : List Char) :
    parseBracket (natRepr n ++ ']' :: rest) = (some (PKey.num n), rest) := by
  have hdig : ∀ c ∈ natRepr n, isDigitCh c = true := natRepr_all_digit n
  obtain ⟨d, ds, hnd⟩ : ∃ d ds, natRepr n = d :: ds := by
    match hr : natRepr n with
    | [] => exact absurd hr (natRepr_ne_nil n)
    | d :: ds => exact ⟨d, ds, rfl⟩
  have hd : isDigitCh d = true := hdig d (by rw [hnd]; simp)
  have hform : natRepr n ++ ']' :: rest = d :: (ds ++ ']' :: rest) := by
    rw [hnd]; rfl
  rw [hform, parseBracket_cons d _ (isDigitCh_not_ws hd),
    if_neg (isDigitCh_ne_quote hd)]
  rw [show (d :: (ds ++ ']' :: rest)) = natRepr n ++ ']' :: rest from hform.symm]
  rw [takeWhile_append_all _ hdig, takeWhile_cons_neg _ (by decide : isDigitCh ']' = false),
    dropWhile_append_all _ hdig, dropWhile_cons_neg _ (by decide : isDigitCh ']' = false)]
  rw [List.append_nil]
  rw [show skipWS (']' :: rest) = ']' :: rest from
    dropWhile_cons_neg _ (by decide : jsWhitespace ']' = false)]
  rw [show skipRBracket (']' :: rest) = rest by simp [skipRBracket]]
  rw [if_neg (by simp [List.isEmpty_iff, natRepr_ne_nil n])]
  rw [digitsToNat_natRepr]

theorem string_mk_data (s : String) : String.mk s.data = s := rfl

theorem parseBracket_quoted (s : String) (hge : ∀ c ∈ s.data, 32 ≤ c.toNat)
    (rest : List Char) :
    parseBracket ('"' :: (jsonEscChars s.data ++ '"' :: (']' :: rest)))
      = (some (PKey.str s), rest) := by
  rw [parseBracket_cons '"' _ (by decide), if_pos (Or.inl rfl)]
  rw [scanQuoted_esc s.data hge [] (']' :: rest)]
  rw [show skipWS (']' :: rest) = ']' :: rest from
    dropWhile_cons_neg _ (by decide : jsWhitespace ']' = false)]
  rw [show skipRBracket (']' :: rest) = rest by simp [skipRBracket]]
  simp [string_mk_data]

/-! ## Parsing rendered chunks -/

/-- The rest of the input after a rendered chunk always starts with `.`
or `[` (or is empty): the safe-start condition under which a chunk
re-parses in isolation. -/
def startsSafeB : List Char → Bool
  | [] => true
  | c :: _ => c = '.' || c = '['

theorem isIdentString_parts {s : String} (h : isIdentString s = true) :
    ∃ c cs, s.data = c :: cs ∧ isIdentStart c = true ∧ ∀ d ∈ cs, isIdentChar d = true := by
  unfold isIdentString at h
  rcases hd : s.data with _ | ⟨c, cs⟩
  · rw [hd] at h; simp at h
  · rw [hd] at h
    simp only [Bool.and_eq_true, List.all_eq_true] at h
    exact ⟨c, cs, rfl, h.1, h.2⟩

theorem isIdentString_all {s : String} (h : isIdentString s = true) :
    ∀ c ∈ s.data, isIdentChar c = true := by
  obtain ⟨c, cs, hd, hstart, hall⟩ := isIdentString_parts h
  intro d hdm
  rw [hd] at hdm
  rcases List.mem_cons.mp hdm with h' | h'
  · subst h'; simp [isIdentChar, hstart]
  · exact hall d h'

theorem takeWhile_ident_safe {rest : List Char} (hr : startsSafeB rest = true) :
    rest.takeWhile isIdentChar = [] := by
  match rest with
  | [] => rfl
  | c :: cs =>
    simp only [startsSafeB, Bool.or_eq_true, decide_eq_true_eq] at hr
    rcases hr with h | h <;> subst h <;> exact takeWhile_cons_neg _ (by decide)

theorem dropWhile_ident_safe {rest : List Char} (hr : startsSafeB rest = true) :
    rest.dropWhile isIdentChar = rest := by
  match rest with
  | [] => rfl
  | c :: cs =>
    simp only [startsSafeB, Bool.or_eq_true, decide_eq_true_eq] at hr
    rcases hr with h | h <;> subst h <;> exact dropWhile_cons_neg _ (by decide)

theorem parseChars_identChunk {s : String} (hid : isIdentString s = true)
    (rest : List Char) (hr : startsSafeB rest = true) :
    parseChars (s.data ++ rest) = PKey.str s :: parseChars rest := by
  obtain ⟨c, cs, hd, hstart, _⟩ := isIdentString_parts hid
  have hall : ∀ d ∈ s.data, isIdentChar d = true := isIdentString_all hid
  rw [hd, List.cons_append,
    parseChars_ident _ (isIdentStart_ne_dot hstart) (isIdentStart_ne_lbracket hstart) hstart]
  rw [show (c :: (cs ++ rest)) = s.data ++ rest by rw [hd]; rfl]
  rw [takeWhile_append_all _ hall, takeWhile_ident_safe hr, List.append_nil,
    dropWhile_append_all _ hall, dropWhile_ident_safe hr, string_mk_data]

theorem parseChars_chunk_num (n : Nat) (rest : List Char) :
    parseChars ('[' :: (natRepr n ++ [']']) ++ rest) = PKey.num n :: parseChars rest := by
  rw [List.cons_append, parseChars_lbracket]
  rw [show (natRepr n ++ [']']) ++ rest = natRepr n ++ ']' :: rest by simp]
  rw [parseBracket_num]

theorem parseChars_chunk_quoted {s : String} (hge : ∀ c ∈ s.data, 32 ≤ c.toNat)
    (rest : List Char) :
    parseChars ('[' :: (jsonQuoteChars s.data ++ [']']) ++ rest)
      = PKey.str s :: parseChars rest := by
  rw [List.cons_append, parseChars_lbracket]
  rw [show (jsonQuoteChars s.data ++ [']']) ++ rest
        = '"' :: (jsonEscChars s.data ++ '"' :: (']' :: rest)) by
    simp [jsonQuoteChars]]
  rw [parseBracket_quoted s hge]

/-! ## Chunk shapes -/

theorem goodKey_str_digit {s : String} (h : goodKeyB (PKey.str s) = true) :
    isDigitString s = false := by
  simp only [goodKeyB, Bool.and_eq_true, Bool.not_eq_true'] at h
  exact h.1

theorem goodKey_str_ge {s : String} (h : goodKeyB (PKey.str s) = true) :
    ∀ c ∈ s.data, 32 ≤ c.toNat := by
  simp only [goodKeyB, Bool.and_eq_true, List.all_eq_true, decide_eq_true_eq] at h
  exact h.2

theorem chunkTail_num (n : Nat) : chunkTail (PKey.num n) = '[' :: (natRepr n ++ [']']) := by
  simp [chunkTail]

theorem chunkTail_ident {s : String} (hdig : isDigitString s = false)
    (hid : isIdentString s = true) : chunkTail (PKey.str s) = '.' :: s.data := by
  simp [chunkTail, hdig, hid]

theorem chunkTail_quoted {s : String} (hdig : isDigitString s = false)
    (hid : isIdentString s = false) :
    chunkTail (PKey.str s) = '[' :: (jsonQuoteChars s.data ++ [']']) := by
  simp [chunkTail, hdig, hid]

theorem chunkHead_num (n : Nat) : chunkHead (PKey.num n) = '[' :: (natRepr n ++ [']']) := by
  simp [chunkHead]

theorem chunkHead_ident {s : String} (hdig : isDigitString s = false)
    (hid : isIdentString s = true) : chunkHead (PKey.str s) = s.data := by
  simp [chunkHead, hdig, hid]

theorem chunkHead_quoted {s : String} (hdig : isDigitString s = false)
    (hid : isIdentString s = false) :
    chunkHead (PKey.str s) = '[' :: (jsonQuoteChars s.data ++ [']']) := by
  simp [chunkHead, hdig, hid]

/-! ## Parsing whole chunks -/

theorem parseChars_chunkTail {k : PKey} (hk : goodKeyB k = true)
    (rest : List Char) (hr : startsSafeB rest = true) :
    parseChars (chunkTail k ++ rest) = k :: parseChars rest := by
  match k with
  | PKey.num n =>
    rw [chunkTail_num, parseChars_chunk_num]
  | PKey.str s =>
    have hdig := goodKey_str_digit hk
    have hge := goodKey_str_ge hk
    by_cases hid : isIdentString s = true
    · rw [chunkTail_ident hdig hid, List.cons_append, parseChars_dot,
        parseChars_identChunk hid rest hr]
    · rw [chunkTail_quoted hdig (by simpa using hid), parseChars_chunk_quoted hge]

theorem parseChars_chunkHead {k : PKey} (hk : goodKeyB k = true)
    (rest : List Char) (hr : startsSafeB rest = true) :
    parseChars (chunkHead k ++ rest) = k :: parseChars rest := by
  match k with
  | PKey.num n =>
    rw [chunkHead_num, parseChars_chunk_num]
  | PKey.str s =>
    have hdig := goodKey_str_digit hk
    have hge := goodKey_str_ge hk
    by_cases hid : isIdentString s = true
    · rw [chunkHead_ident hdig hid, parseChars_identChunk hid rest hr]
    · rw [chunkHead_quoted hdig (by simpa using hid), parseChars_chunk_quoted hge]

theorem chunkTail_head {k : PKey} (hk : goodKeyB k = true) :
    ∃ c cs, chunkTail k = c :: cs ∧ (c = '.' ∨ c = '[') := by
  match k with
  | PKey.num n => exact ⟨'[', _, chunkTail_num n, Or.inr rfl⟩
  | PKey.str s =>
    have hdig := goodKey_str_digit hk
    by_cases hid : isIdentString s = true
    · exact ⟨'.', _, chunkTail_ident hdig hid, Or.inl rfl⟩
    · exact ⟨'[', _, chunkTail_quoted hdig (by simpa using hid), Or.inr rfl⟩

theorem joinTails_cons (k : PKey) (ps : List PKey) :
    joinTails (k :: ps) = chunkTail k ++ joinTails ps := by
  simp [joinTails]

theorem startsSafeB_joinTails (p : List PKey) (h : ∀ k ∈ p, goodKeyB k = true) :
    startsSafeB (joinTails p) = true := by
  match p with
  | [] => rfl
  | k :: ps =>
    obtain ⟨c, cs, hck, hcd⟩ := chunkTail_head (h k (by simp))
    rw [joinTails_cons, hck, List.cons_append]
    simp only [startsSafeB]
    rcases hcd with h' | h' <;> simp [h']

theorem parseChars_joinTails :
    ∀ (p : List PKey), (∀ k ∈ p, goodKeyB k = true) → parseChars (joinTails p) = p := by
  intro p
  induction p with
  | nil => intro _; exact parseChars_nil
  | cons k ps ih =>
    intro h
    rw [joinTails_cons,
      parseChars_chunkTail (h k (by simp)) _
        (startsSafeB_joinTails ps (fun k' hk' => h k' (by simp [hk']))),
      ih (fun k' hk' => h k' (by simp [hk']))]

/-! ## Boundary characters of the canonical form (no whitespace at the ends) -/

theorem chunkHead_head_not_ws {k : PKey} (hk : goodKeyB k = true) :
    ∀ c, (chunkHead k).head? = some c → jsWhitespace c = false := by
  match k with
  | PKey.num n =>
    intro c hc
    rw [chunkHead_num] at hc
    simp at hc
    subst hc; decide
  | PKey.str s =>
    have hdig := goodKey_str_digit hk
    by_cases hid : isIdentString s = true
    · intro c hc
      rw [chunkHead_ident hdig hid] at hc
      exact isIdentChar_not_ws (isIdentString_all hid c (head?_mem hc))
    · intro c hc
      rw [chunkHead_quoted hdig (by simpa using hid)] at hc
      simp at hc
      subst hc; decide

theorem getLast?_append_right {l₂ : List Char} (l₁ : List Char) (h : l₂ ≠ []) :
    (l₁ ++ l₂).getLast? = l₂.getLast? := by
  rw [← List.head?_reverse, List.reverse_append,
    head?_append_ne _ (by simpa [List.reverse_eq_nil_iff] using h), List.head?_reverse]

theorem getLast?_mem {l : List Char} {c : Char} (h : l.getLast? = some c) : c ∈ l := by
  rw [← List.head?_reverse] at h
  exact List.mem_reverse.mp (head?_mem h)

theorem chunkTail_last_not_ws {k : PKey} (hk : goodKeyB k = true) :
    ∀ c, (chunkTail k).getLast? = some c → jsWhitespace c = false := by
  match k with
  | PKey.num n =>
    intro c hc
    rw [show chunkTail (PKey.num n) = ('[' :: natRepr n) ++ [']'] by
        rw [chunkTail_num]; simp,
      getLast?_append_right _ (by simp)] at hc
    simp at hc
    subst hc; decide
  | PKey.str s =>
    have hdig := goodKey_str_digit hk
    by_cases hid : isIdentString s = true
    · intro c hc
      rw [chunkTail_ident hdig hid,
        show ('.' :: s.data) = ['.'] ++ s.data by simp,
        getLast?_append_right _ (isIdentString_data_ne_nil hid)] at hc
      exact isIdentChar_not_ws (isIdentString_all hid c (getLast?_mem hc))
    · intro c hc
      rw [chunkTail_quoted hdig (by simpa using hid),
        show ('[' :: (jsonQuoteChars s.data ++ [']']))
            = ('[' :: jsonQuoteChars s.data) ++ [']'] by simp,
        getLast?_append_right _ (by simp)] at hc
      simp at hc
      subst hc; decide

theorem chunkHead_last_not_ws {k : PKey} (hk : goodKeyB k = true) :
    ∀ c, (chunkHead k).getLast? = some c → jsWhitespace c = false := by
  match k with
  | PKey.num n =>
    intro c hc
    rw [show chunkHead (PKey.num n) = ('[' :: natRepr n) ++ [']'] by
        rw [chunkHead_num]; simp,
      getLast?_append_right _ (by simp)] at hc
    simp at hc
    subst hc; decide
  | PKey.str s =>
    have hdig := goodKey_str_digit hk
    by_cases hid : isIdentString s = true
    · intro c hc
      rw [chunkHead_ident hdig hid] at hc
      exact isIdentChar_not_ws (isIdentString_all hid c (getLast?_mem hc))
    · intro c hc
      rw [chunkHead_quoted hdig (by simpa using hid),
        show ('[' :: (jsonQuoteChars s.data ++ [']']))
            = ('[' :: jsonQuoteChars s.data) ++ [']'] by simp,
        getLast?_append_right _ (by simp)] at hc
      simp at hc
      subst hc; decide

theorem joinTails_ne_nil {p : List PKey} (h : p ≠ []) : joinTails p ≠ [] := by
  match p with
  | [] => exact absurd rfl h
  | k :: ps =>
    rw [joinTails_cons]
    intro hc
    rcases List.append_eq_nil.mp hc with ⟨h1, _⟩
    exact chunkTail_ne_nil k h1

theorem joinTails_last_not_ws :
    ∀ (p : List PKey), p ≠ [] → (∀ k ∈ p, goodKeyB k = true) →
      ∀ c, (joinTails p).getLast? = some c → jsWhitespace c = false := by
  intro p
  induction p with
  | nil => intro h; exact absurd rfl h
  | cons k ps ih =>
    intro _ hgood c hc
    rw [joinTails_cons] at hc
    by_cases hps : ps = []
    · subst hps
      rw [show joinTails [] = [] from rfl, List.append_nil] at hc
      exact chunkTail_last_not_ws (hgood k (by simp)) c hc
    · rw [getLast?_append_right _ (joinTails_ne_nil hps)] at hc
      exact ih hps (fun k' hk' => hgood k' (by simp [hk'])) c hc

theorem jsTrim_pathToChars (p : List PKey) (h : ∀ k ∈ p, goodKeyB k = true) :
    jsTrim (pathToChars p) = pathToChars p := by
  match p with
  | [] => rfl
  | k :: ps =>
    rw [pathToChars_cons]
    have hgk := h k (by simp)
    have hgps : ∀ k' ∈ ps, goodKeyB k' = true := fun k' hk' => h k' (by simp [hk'])
    have h1 : (chunkHead k ++ joinTails ps).dropWhile jsWhitespace
        = chunkHead k ++ joinTails ps := by
      apply dropWhile_eq_self_of_head
      intro c hc
      rw [head?_append_ne _ (chunkHead_ne_nil k)] at hc
      exact chunkHead_head_not_ws hgk c hc
    have h2 : (chunkHead k ++ joinTails ps).reverse.dropWhile jsWhitespace
        = (chunkHead k ++ joinTails ps).reverse := by
      apply dropWhile_eq_self_of_head
      intro c hc
      rw [List.head?_reverse] at hc
      by_cases hps : ps = []
      · subst hps
        rw [show joinTails [] = [] from rfl, List.append_nil] at hc
        exact chunkHead_last_not_ws hgk c hc
      · rw [getLast?_append_right _ (joinTails_ne_nil hps)] at hc
        exact joinTails_last_not_ws ps hps hgps c hc
    unfold jsTrim
    rw [h1, h2, List.reverse_reverse]

/-! ## The canonicalization round-trip -/

/-- Core round-trip: re-parsing the canonical rendering of a path of good
keys recovers the path exactly. -/
theorem parsePath_pathToString (p : List PKey) (h : ∀ k ∈ p, goodKeyB k = true) :
    _parsePath (_pathToString p) = p := by
  unfold _parsePath _pathToString
  rw [show (String.mk (pathToChars p)).data = pathToChars p from rfl]
  rw [jsTrim_pathToChars p h]
  match p with
  | [] => exact parseChars_nil
  | k :: ps =>
    rw [pathToChars_cons,
      parseChars_chunkHead (h k (by simp)) _
        (startsSafeB_joinTails ps (fun k' hk' => h k' (by simp [hk']))),
      parseChars_joinTails ps (fun k' hk' => h k' (by simp [hk']))]

/-! ## Claim C3: canonicalization round-trip -/

/-- C3, counterexample.  The claim asserts the round-trip
`parse(toCanonical(parse(s))) = parse(s)` for every valid key sequence,
"including for bracket-quoted keys and integer-looking keys".  It fails
for the bracket-quoted integer-looking key `["12"]`: `_parsePath`
produces the string key `"12"`, `_pathToString` renders any all-digit
string key as the bare index form `[12]` (its digit test
`/^\d+$/.test(String(k))` does not distinguish strings from numbers), and
re-parsing yields the numeric key `12`, not the string key `"12"`. -/
theorem C3_roundtrip_counterexample :
    ¬ _parsePath (_pathToString (_parsePath "[\"12\"]")) = _parsePath "[\"12\"]" := by
  decide

/-- Keys whose behaviour in the source is captured exactly by the `Nat`
number model on top of `goodKeyB`: numeric indices must lie in the
double-safe-integer range (`n < 2^53`, where `parseInt` of the digit run
is exact) — which also keeps them below `10^21`, where `String(n)` is
plain decimal rather than exponential.  Outside this range the source
rounds (`parseInt("9007199254740993")` loses the final digit) or changes
notation (`String(1e21) = "1e+21"`, which re-parses as the keys
`[1, "e"]`), so the round-trip fails there too and the claim must
exclude it. -/
def jsSafeKeyB : PKey → Bool
  | PKey.num n => decide (n < 2 ^ 53)
  | PKey.str s => goodKeyB (PKey.str s)

theorem jsSafeKeyB_good {k : PKey} (h : jsSafeKeyB k = true) : goodKeyB k = true := by
  match k with
  | PKey.num n => rfl
  | PKey.str s => exact h

/-- C3, amended.  The round-trip `parse(toCanonical(parse(s))) = parse(s)`
holds for every string `s` whose parsed key sequence contains no
all-digit string key (those canonicalize to numeric indices), no control
character inside a key (those are emitted through JSON escapes the
parser does not undo), and no numeric index at or above `2^53` (beyond
the safe-integer range `parseInt` rounds, and from `10^21` on `String`
renders exponentially — `[1000000000000000000000]` becomes `[1e+21]`,
which re-parses as `[1, "e"]`); under the same conditions the canonical
string form is stable: re-parsing a canonical string and re-stringifying
it reproduces the same string. -/
theorem C3_roundtrip_amended :
    (∀ s : String, (∀ k ∈ _parsePath s, jsSafeKeyB k = true) →
        _parsePath (_pathToString (_parsePath s)) = _parsePath s)
    ∧ (∀ p : List PKey, (∀ k ∈ p, jsSafeKeyB k = true) →
        _pathToString (_parsePath (_pathToString p)) = _pathToString p) :=
  ⟨fun s h => parsePath_pathToString (_parsePath s)
      (fun k hk => jsSafeKeyB_good (h k hk)),
   fun p h => by rw [parsePath_pathToString p (fun k hk => jsSafeKeyB_good (h k hk))]⟩

/-- C3, witness: the amended round-trip applied to a concrete path string
with an identifier key, a bracket-quoted key and a (safe) numeric
index. -/
theorem C3_roundtrip_witness :
    (∀ k ∈ _parsePath "a[\"weird key\"][3].b", jsSafeKeyB k = true)
    ∧ _parsePath (_pathToString (_parsePath "a[\"weird key\"][3].b"))
        = _parsePath "a[\"weird key\"][3].b" :=
  ⟨by decide, C3_roundtrip_amended.1 _ (by decide)⟩

/-! ## JS values and change events -/

/-- JS runtime values, with object identity represented by a numeric id.
`nan` is split out because it is never `===`-equal to anything. -/
inductive JSVal where
  | undef
  | nullV
  | nan
  | boolV (b : Bool)
  | numV (n : Int)
  | strV (s : String)
  | obj (id : Nat)
  deriving DecidableEq, Repr

/-- `typeof v === "object" && v` (truthy): true exactly for non-null
objects and arrays, as tested by the `isObjReplace` check of the change
hook (null is `typeof "object"` but falsy; functions are
`typeof "function"`). -/
def isObjVal : JSVal → Bool
  | JSVal.obj _ => true
  | _ => false

/-- JS strict equality `===` on our value model: reference equality for
objects, structural for primitives, never true for `NaN`. -/
def jsStrictEq : JSVal → JSVal → Bool
  | JSVal.nan, _ => false
  | _, JSVal.nan => false
  | a, b => decide (a = b)

/-- The `type` field of a change event. -/
inductive ChangeKind where
  | add
  | set
  | delete
  | define
  deriving DecidableEq, Repr

/-! ## Change propagation (the `__onChange` hook) -/

/-- Step 4 of the hook (the ancestor walk): `_parsePath(p)`, then
repeatedly `pop()`; each time the array is still nonempty the shortened
path is re-stringified and notified (longest ancestor first). -/
def ancestorWalk (arr : List PKey) : List (List Char) :=
  ((List.range arr.length).reverse.dropLast).map (fun i => pathToChars (arr.take i))

/-- `_notifyDescendants`: registry key `k` is treated as a descendant of
`p` when `k ≠ p` and `k` starts with `p + "."` or `p + "["`. -/
def isDescendantKey (p k : List Char) : Bool :=
  !(decide (k = p)) && ((p ++ ['.']).isPrefixOf k || (p ++ ['[']).isPrefixOf k)

/-- The `isObjReplace` test of the hook: the event sets/adds/defines a
truthy `typeof "object"` value. -/
def isObjReplaceB (kind : ChangeKind) (v : JSVal) : Bool :=
  (decide (kind = ChangeKind.set) || decide (kind = ChangeKind.add)
    || decide (kind = ChangeKind.define)) && isObjVal v

/-- Whether the change hook invokes `_notifyBindings k` for leaf-registry
key `k` while processing a change event with path string `p`, kind
`kind` and new value `v`: step 2 notifies the exact event key, step 3
notifies descendant keys when a whole object was stored, step 4 notifies
every re-stringified nonempty proper prefix of `_parsePath p`. -/
def leafKeyTriggered (kind : ChangeKind) (p : List Char) (v : JSVal) (k : List Char) : Bool :=
  decide (k = p)
  || (isObjReplaceB kind v && isDescendantKey p k)
  || decide (k ∈ ancestorWalk (_parsePath (String.mk p)))

theorem range_tail_mem (n i : Nat) : i ∈ (List.range n).tail ↔ 1 ≤ i ∧ i < n := by
  cases n with
  | zero => simp
  | succ m =>
    rw [List.range_succ_eq_map]
    simp only [List.tail_cons, List.mem_map, List.mem_range]
    constructor
    · rintro ⟨a, ha, rfl⟩; omega
    · rintro ⟨h1, h2⟩; exact ⟨i - 1, by omega, by omega⟩

theorem mem_ancestorWalk {arr : List PKey} {k : List Char} :
    k ∈ ancestorWalk arr
      ↔ ∃ i, 1 ≤ i ∧ i < arr.length ∧ k = pathToChars (arr.take i) := by
  unfold ancestorWalk
  rw [List.dropLast_reverse, List.mem_map]
  constructor
  · rintro ⟨i, hi, rfl⟩
    rw [List.mem_reverse, range_tail_mem] at hi
    exact ⟨i, hi.1, hi.2, rfl⟩
  · rintro ⟨i, h1, h2, rfl⟩
    exact ⟨i, by rw [List.mem_reverse, range_tail_mem]; exact ⟨h1, h2⟩, rfl⟩

/-! ## Claim C1: fan-out of a change event over the leaf registry -/

/-- C1: for a change event whose new value is not an object, a
leaf-binding registry key `k` is triggered iff `k` is the event path
itself or one of its nonempty proper ancestors (re-stringified prefixes
of the parsed path); descendant keys are not triggered.  The second
conjunct is the spec's concrete instance: with bindings on `a`, `a.b`,
`a.b.c` and `a.b.c.d`, setting `a.b.c` to a primitive triggers exactly
the first three. -/
theorem C1_fanout :
    (∀ (arr : List PKey) (kind : ChangeKind) (v : JSVal) (k : List Char),
        (∀ key ∈ arr, goodKeyB key = true) → isObjVal v = false →
        (leafKeyTriggered kind (pathToChars arr) v k = true ↔
          (k = pathToChars arr ∨
            ∃ i, 1 ≤ i ∧ i < arr.length ∧ k = pathToChars (arr.take i))))
    ∧ ((["a", "a.b", "a.b.c", "a.b.c.d"].map String.data).filter
          (leafKeyTriggered ChangeKind.set "a.b.c".data (JSVal.numV 1))
        = ["a", "a.b", "a.b.c"].map String.data) := by
  constructor
  · intro arr kind v k hgood hv
    unfold leafKeyTriggered
    have hobj : isObjReplaceB kind v = false := by
      simp [isObjReplaceB, hv]
    rw [hobj]
    have hparse : _parsePath (String.mk (pathToChars arr)) = arr :=
      parsePath_pathToString arr hgood
    rw [hparse]
    simp only [Bool.false_and, Bool.or_false, Bool.false_or, Bool.or_eq_true,
      decide_eq_true_eq]
    rw [mem_ancestorWalk]
  · decide

/-- C1, witness: the general fan-out equivalence applied to the concrete
event `a.b.c := 1` and the registry key `a.b`. -/
theorem C1_fanout_witness :
    leafKeyTriggered ChangeKind.set
        (pathToChars [PKey.str "a", PKey.str "b", PKey.str "c"]) (JSVal.numV 1)
        "a.b".data = true
      ↔ ("a.b".data = pathToChars [PKey.str "a", PKey.str "b", PKey.str "c"] ∨
          ∃ i, 1 ≤ i ∧ i < ([PKey.str "a", PKey.str "b", PKey.str "c"] : List PKey).length
            ∧ "a.b".data = pathToChars ([PKey.str "a", PKey.str "b", PKey.str "c"].take i)) :=
  C1_fanout.1 [PKey.str "a", PKey.str "b", PKey.str "c"] ChangeKind.set (JSVal.numV 1)
    "a.b".data (by decide) (by decide)

/-! ## The deep-proxy traps -/

/-- A change event as built by the traps (`target` is the raw owner
object, represented by its identity). -/
structure ChangeEvt where
  type : ChangeKind
  path : List PKey
  pathString : List Char
  targetId : Nat
  prop : String
  value : JSVal
  oldValue : JSVal
  deriving DecidableEq, Repr

/-- The reserved internal keys of the proxy (`INTERNAL`). -/
def isInternalKey (prop : String) : Bool :=
  decide (prop = "__isEzDeepProxy") || decide (prop = "__onChange") || decide (prop = "__raw")

/-- Own enumerable data properties of a raw object, in property order
(assignment to an existing name keeps its slot, a new name appends). -/
def hasOwnProperty (t : List (String × JSVal)) (prop : String) : Bool :=
  t.any (fun e => e.1 = prop)

/-- `target[prop]`: the own property's value, `undefined` when absent. -/
def jsGet (t : List (String × JSVal)) (prop : String) : JSVal :=
  match t.find? (fun e => e.1 = prop) with
  | some e => e.2
  | none => JSVal.undef

/-- `Reflect.set` on a plain data object. -/
def assocSet (t : List (String × JSVal)) (prop : String) (v : JSVal) :
    List (String × JSVal) :=
  if hasOwnProperty t prop then t.map (fun e => if e.1 = prop then (prop, v) else e)
  else t ++ [(prop, v)]

/-- `Reflect.deleteProperty` on a plain data object. -/
def assocRemove (t : List (String × JSVal)) (prop : String) : List (String × JSVal) :=
  t.filter (fun e => !(decide (e.1 = prop)))

/-- The value argument of the set trap: either a plain value, or a proxy
(`value[__isEzDeepProxy] === true` with truthy `value[__raw]`) wrapping a
raw object; proxies only ever wrap objects/arrays. -/
inductive SetArg where
  | plain (v : JSVal)
  | proxyOf (rawId : Nat)
  deriving DecidableEq, Repr

/-- The unwrapping performed by the set trap before storage. -/
def SetArg.newValue : SetArg → JSVal
  | SetArg.plain v => v
  | SetArg.proxyOf r => JSVal.obj r

/-- `_registerRawPath`: record the alias (keyed by its string form) for a
raw object unless that string is already present; `rawPaths` for one raw
object is modelled as the list of recorded alias path arrays in
insertion order. -/
def _registerRawPath (aliases : List (List PKey)) (pathArr : List PKey) :
    List (List PKey) :=
  if aliases.any (fun a => pathToChars a = pathToChars pathArr) then aliases
  else aliases ++ [pathArr]

/-- `_emitAllAliases`: one event per alias recorded for the raw target,
or a single event at the wrap-time path when none are recorded. -/
def _emitAllAliases (aliases : List (List PKey)) (primary : List PKey)
    (factory : List PKey → ChangeEvt) : List ChangeEvt :=
  if aliases.isEmpty then [factory primary] else aliases.map factory

/-- Result of one trap invocation: the raw target afterwards, plus the
events emitted (in emission order). -/
structure TrapResult where
  target : List (String × JSVal)
  events : List ChangeEvt
  deriving DecidableEq, Repr

/-- The `set` trap of `_wrap` for a proxy created at path `pathArr` over
the raw object `(targetId, target)` whose recorded aliases are
`aliases`: internal keys are swallowed (the `__onChange` arm installs the
hook, which is stateless here); an assignment of a `===`-identical value
to an existing key is a no-op; otherwise the (unwrapped) value is stored
and one add/set event is emitted per recorded alias. -/
def setTrap (target : List (String × JSVal)) (targetId : Nat) (pathArr : List PKey)
    (aliases : List (List PKey)) (prop : String) (value : SetArg) : TrapResult :=
  if isInternalKey prop then ⟨target, []⟩
  else
    let had := hasOwnProperty target prop
    let oldValue := jsGet target prop
    let newValue := value.newValue
    if had && jsStrictEq oldValue newValue then ⟨target, []⟩
    else
      ⟨assocSet target prop newValue,
        _emitAllAliases aliases pathArr (fun aliasPathArr =>
          { type := if had then ChangeKind.set else ChangeKind.add
            path := aliasPathArr ++ [PKey.str prop]
            pathString := pathToChars (aliasPathArr ++ [PKey.str prop])
            targetId := targetId
            prop := prop
            value := newValue
            oldValue := oldValue })⟩

/-- The `deleteProperty` trap of `_wrap`: internal keys and absent keys
are no-ops; a present key is removed and a single `delete` event is
emitted at the proxy's own path (`pathArr.concat([prop])`), with
`value = undefined` and the removed value as `oldValue`.  Unlike the set
trap it does not consult the recorded aliases. -/
def deleteTrap (target : List (String × JSVal)) (targetId : Nat) (pathArr : List PKey)
    (prop : String) : TrapResult :=
  if isInternalKey prop then ⟨target, []⟩
  else if hasOwnProperty target prop = false then ⟨target, []⟩
  else
    ⟨assocRemove target prop,
      [{ type := ChangeKind.delete
         path := pathArr ++ [PKey.str prop]
         pathString := pathToChars (pathArr ++ [PKey.str prop])
         targetId := targetId
         prop := prop
         value := JSVal.undef
         oldValue := jsGet target prop }]⟩

/-- An event at `q ++ [prop]` triggers the leaf binding registered on the
root key `q` (via the ancestor walk). -/
theorem leafKeyTriggered_parent {q : List PKey} {prop : String} (hq : q ≠ [])
    (hgood : ∀ k ∈ q ++ [PKey.str prop], goodKeyB k = true)
    (kind : ChangeKind) (v : JSVal) :
    leafKeyTriggered kind (pathToChars (q ++ [PKey.str prop])) v (pathToChars q) = true := by
  unfold leafKeyTriggered
  have hparse : _parsePath (String.mk (pathToChars (q ++ [PKey.str prop])))
      = q ++ [PKey.str prop] := parsePath_pathToString _ hgood
  rw [hparse]
  have hmem : pathToChars q ∈ ancestorWalk (q ++ [PKey.str prop]) := by
    rw [mem_ancestorWalk]
    refine ⟨q.length, ?_, ?_, ?_⟩
    · cases q with
      | nil => exact absurd rfl hq
      | cons _ _ => simp
    · simp
    · rw [List.take_left]
  simp [hmem]

theorem setTrap_write (target : List (String × JSVal)) (targetId : Nat)
    (pathArr : List PKey) (aliases : List (List PKey)) (prop : String) (value : SetArg)
    (hint : isInternalKey prop = false)
    (hcond : (hasOwnProperty target prop
        && jsStrictEq (jsGet target prop) value.newValue) = false) :
    setTrap target targetId pathArr aliases prop value
      = ⟨assocSet target prop value.newValue,
         _emitAllAliases aliases pathArr (fun aliasPathArr =>
           { type := if hasOwnProperty target prop then ChangeKind.set else ChangeKind.add
             path := aliasPathArr ++ [PKey.str prop]
             pathString := pathToChars (aliasPathArr ++ [PKey.str prop])
             targetId := targetId
             prop := prop
             value := value.newValue
             oldValue := jsGet target prop })⟩ := by
  unfold setTrap
  rw [if_neg (by simp [hint])]
  show (if (hasOwnProperty target prop
      && jsStrictEq (jsGet target prop) value.newValue) = true then _ else _) = _
  rw [if_neg (by simp [hcond])]

theorem setTrap_skip (target : List (String × JSVal)) (targetId : Nat)
    (pathArr : List PKey) (aliases : List (List PKey)) (prop : String) (value : SetArg)
    (hint : isInternalKey prop = false)
    (hcond : (hasOwnProperty target prop
        && jsStrictEq (jsGet target prop) value.newValue) = true) :
    setTrap target targetId pathArr aliases prop value = ⟨target, []⟩ := by
  unfold setTrap
  rw [if_neg (by simp [hint])]
  show (if (hasOwnProperty target prop
      && jsStrictEq (jsGet target prop) value.newValue) = true then _ else _) = _
  rw [if_pos hcond]

/-! ## Claim C2: alias fan-out of the set trap -/

/-- C2: when the raw object owning `prop` has the two root paths `q1` and
`q2` recorded as aliases (it was reached through wrapped references under
both), and the assignment actually writes (the key is new or the value
differs), the set trap emits exactly one change event per recorded alias
— at `q1 ++ [prop]` and `q2 ++ [prop]`, both carrying the same kind and
new value — and each event triggers the leaf binding registered under its
root path via the ancestor walk, so bindings under both roots are
applied. -/
theorem C2_alias_fanout (target : List (String × JSVal)) (targetId : Nat)
    (pathArr q1 q2 : List PKey) (prop : String) (value : SetArg)
    (hint : isInternalKey prop = false)
    (hwrite : hasOwnProperty target prop = false
      ∨ jsStrictEq (jsGet target prop) value.newValue = false)
    (hq1 : q1 ≠ []) (hq2 : q2 ≠ [])
    (hg1 : ∀ k ∈ q1 ++ [PKey.str prop], goodKeyB k = true)
    (hg2 : ∀ k ∈ q2 ++ [PKey.str prop], goodKeyB k = true) :
    ((setTrap target targetId pathArr [q1, q2] prop value).events.map ChangeEvt.pathString
        = [pathToChars (q1 ++ [PKey.str prop]), pathToChars (q2 ++ [PKey.str prop])])
    ∧ ((setTrap target targetId pathArr [q1, q2] prop value).events.map ChangeEvt.type
        = [if hasOwnProperty target prop then ChangeKind.set else ChangeKind.add,
           if hasOwnProperty target prop then ChangeKind.set else ChangeKind.add])
    ∧ ((setTrap target targetId pathArr [q1, q2] prop value).events.map ChangeEvt.value
        = [value.newValue, value.newValue])
    ∧ leafKeyTriggered
        (if hasOwnProperty target prop then ChangeKind.set else ChangeKind.add)
        (pathToChars (q1 ++ [PKey.str prop])) value.newValue (pathToChars q1) = true
    ∧ leafKeyTriggered
        (if hasOwnProperty target prop then ChangeKind.set else ChangeKind.add)
        (pathToChars (q2 ++ [PKey.str prop])) value.newValue (pathToChars q2) = true := by
  have hcond : (hasOwnProperty target prop
      && jsStrictEq (jsGet target prop) value.newValue) = false := by
    rcases hwrite with h | h <;> simp [h]
  rw [setTrap_write target targetId pathArr [q1, q2] prop value hint hcond]
  refine ⟨?_, ?_, ?_, ?_, ?_⟩
  · simp [_emitAllAliases]
  · simp [_emitAllAliases]
  · simp [_emitAllAliases]
  · exact leafKeyTriggered_parent hq1 hg1 _ _
  · exact leafKeyTriggered_parent hq2 hg2 _ _

/-- C2, witness: a raw object recorded under aliases `m` and `n`; setting
`leaf` through either wrapper emits the two events `m.leaf` and
`n.leaf`. -/
theorem C2_alias_fanout_witness :
    (setTrap [] 0 [] [[PKey.str "m"], [PKey.str "n"]] "leaf"
        (SetArg.plain (JSVal.numV 1))).events.map ChangeEvt.pathString
      = [pathToChars ([PKey.str "m"] ++ [PKey.str "leaf"]),
         pathToChars ([PKey.str "n"] ++ [PKey.str "leaf"])] :=
  (C2_alias_fanout [] 0 [] [PKey.str "m"] [PKey.str "n"] "leaf"
    (SetArg.plain (JSVal.numV 1)) (by decide) (Or.inl (by decide)) (by decide) (by decide)
    (by decide) (by decide)).1

/-! ## Claim C4: idempotent writes -/

/-- C4: writing a `===`-identical value to an existing key leaves the raw
target untouched and emits no event; writing a different value, or a
previously absent key, emits at least one event, of kind `set` for an
existing key and `add` for a new one. -/
theorem C4_idempotent_write (target : List (String × JSVal)) (targetId : Nat)
    (pathArr : List PKey) (aliases : List (List PKey)) (prop : String) (value : SetArg)
    (hint : isInternalKey prop = false) :
    (hasOwnProperty target prop = true
        ∧ jsStrictEq (jsGet target prop) value.newValue = true →
        setTrap target targetId pathArr aliases prop value = ⟨target, []⟩)
    ∧ (hasOwnProperty target prop = false
        ∨ jsStrictEq (jsGet target prop) value.newValue = false →
        (setTrap target targetId pathArr aliases prop value).events ≠ []
        ∧ ∀ e ∈ (setTrap target targetId pathArr aliases prop value).events,
            e.type = if hasOwnProperty target prop then ChangeKind.set
              else ChangeKind.add) := by
  constructor
  · rintro ⟨h1, h2⟩
    exact setTrap_skip target targetId pathArr aliases prop value hint (by simp [h1, h2])
  · intro hwrite
    have hcond : (hasOwnProperty target prop
        && jsStrictEq (jsGet target prop) value.newValue) = false := by
      rcases hwrite with h | h <;> simp [h]
    rw [setTrap_write target targetId pathArr aliases prop value hint hcond]
    constructor
    · unfold _emitAllAliases
      split
      · simp
      · rename_i hne
        simp only [List.isEmpty_iff] at hne
        simp [hne]
    · intro e he
      unfold _emitAllAliases at he
      split at he
      · simp only [List.mem_singleton] at he
        rw [he]
      · simp only [List.mem_map] at he
        obtain ⟨a, _, hae⟩ := he
        rw [← hae]

/-- C4, witness: re-writing `x := 5` over `{x: 5}` is a silent no-op. -/
theorem C4_idempotent_write_witness :
    setTrap [("x", JSVal.numV 5)] 0 [] [] "x" (SetArg.plain (JSVal.numV 5))
      = ⟨[("x", JSVal.numV 5)], []⟩ :=
  (C4_idempotent_write [("x", JSVal.numV 5)] 0 [] [] "x" (SetArg.plain (JSVal.numV 5))
    (by decide)).1 ⟨by decide, by decide⟩

/-! ## Claim C5: delete semantics -/

/-- C5, counterexample.  The claim says deleting a present key emits one
`kind=delete` event per known alias path of the owning raw object.  With
two aliases (`a` and `b`) recorded, deleting `x` through the wrapper at
path `a` emits exactly one event, at `a.x` — not one event per alias:
the delete trap calls `_emitChange` directly and never consults
`rawPaths`/`_emitAllAliases`. -/
theorem C5_delete_counterexample :
    ((deleteTrap [("x", JSVal.numV 5)] 0 [PKey.str "a"] "x").events.map ChangeEvt.pathString
      = ["a.x".data])
    ∧ ¬ ((deleteTrap [("x", JSVal.numV 5)] 0 [PKey.str "a"] "x").events.map
          ChangeEvt.pathString
        = ["a.x".data, "b.x".data]) := by
  constructor
  · decide
  · decide

/-- C5, amended: deleting an absent key is a no-op that emits nothing;
deleting a present key removes it and emits exactly ONE `kind=delete`
event, at the deleting wrapper's own path `pathArr ++ [prop]`, with
`newValue = undefined` and `oldValue` the removed value — regardless of
how many aliases are recorded for the owning raw object. -/
theorem C5_delete_amended (target : List (String × JSVal)) (targetId : Nat)
    (pathArr : List PKey) (prop : String)
    (hint : isInternalKey prop = false) :
    (hasOwnProperty target prop = false →
      deleteTrap target targetId pathArr prop = ⟨target, []⟩)
    ∧ (hasOwnProperty target prop = true →
      deleteTrap target targetId pathArr prop
        = ⟨assocRemove target prop,
           [{ type := ChangeKind.delete
              path := pathArr ++ [PKey.str prop]
              pathString := pathToChars (pathArr ++ [PKey.str prop])
              targetId := targetId
              prop := prop
              value := JSVal.undef
              oldValue := jsGet target prop }]⟩) := by
  constructor
  · intro habs
    unfold deleteTrap
    rw [if_neg (by simp [hint]), if_pos habs]
  · intro hpres
    unfold deleteTrap
    rw [if_neg (by simp [hint]), if_neg (by simp [hpres])]

/-- C5, witness: the amended delete semantics at a concrete present key. -/
theorem C5_delete_amended_witness :
    deleteTrap [("x", JSVal.numV 5)] 0 [PKey.str "a"] "x"
      = ⟨[], [{ type := ChangeKind.delete
                path := [PKey.str "a"] ++ [PKey.str "x"]
                pathString := pathToChars ([PKey.str "a"] ++ [PKey.str "x"])
                targetId := 0
                prop := "x"
                value := JSVal.undef
                oldValue := JSVal.numV 5 }]⟩ := by
  have h := (C5_delete_amended [("x", JSVal.numV 5)] 0 [PKey.str "a"] "x" (by decide)).2
    (by decide)
  rw [h]
  decide

/-! ## Claim C6: `_renderForRecord` ordering -/

/-- The DOM siblings that follow the `ezFor` anchor after
`_renderForRecord` rebuilds: previously rendered instances are removed
first, then the loop runs `i` from `arr.length - 1` down to `0`, cloning
the template for `arr[i]` and inserting the clone immediately after the
anchor (`insertBefore(item, rec.anchor.nextSibling)`), i.e. prepending it
to the sibling list. -/
def _renderForRecord {α : Type} [Inhabited α] (arr : List α) : List α :=
  ((List.range arr.length).reverse).foldl (fun dom i => arr.get! i :: dom) []

theorem map_get!_range {α : Type} [Inhabited α] :
    ∀ (arr : List α), (List.range arr.length).map (fun i => arr.get! i) = arr := by
  intro arr
  induction arr with
  | nil => simp
  | cons a l ih =>
    rw [List.length_cons, List.range_succ_eq_map, List.map_cons, List.map_map]
    congr 1

/-- C6: after a rebuild the rendered instances appear after the anchor in
array order (index 0 first), even though the loop iterates from
`length - 1` down to `0` — each insertion right after the anchor pushes
the previously inserted clones rightwards.  Includes the spec's concrete
instance for `["x","y","z"]`. -/
theorem C6_repeat_ordering :
    (∀ (α : Type) [Inhabited α] (arr : List α), _renderForRecord arr = arr)
    ∧ _renderForRecord ["x", "y", "z"] = ["x", "y", "z"] := by
  refine ⟨?_, by decide⟩
  intro α _ arr
  unfold _renderForRecord
  rw [List.foldl_reverse]
  rw [show (List.range arr.length).foldr (fun i dom => arr.get! i :: dom) []
        = (List.range arr.length).map (fun i => arr.get! i) from
    (List.map_eq_foldr _ _).symm]
  exact map_get!_range arr

/-! ## Claim C7: the coalescing rebuild scheduler -/

/-- State of one rebuild key (an `ezFor` record in `_pendingForRebuild`,
or a `<select>` element in `_pendingSelectRebuild`) within one
cooperative turn: the pending flag, the number of queued microtask
callbacks for this key, whether the node is still attached
(`rec.anchor.parentNode` / `el.isConnected`), the current array at the
source path, the last rendered array, and the number of rebuild bodies
actually executed. -/
structure SchedState where
  pending : Bool
  tasks : Nat
  attached : Bool
  data : List String
  rendered : Option (List String)
  rebuilds : Nat
  deriving DecidableEq, Repr

/-- `_scheduleForRebuild` (and the identical coalescing head of
`_scheduleSelectRebuild`): a request while a rebuild is already pending
for this key is a no-op; otherwise the pending flag is set and one
microtask callback is queued via `queueMicrotask`. -/
def _scheduleForRebuild (s : SchedState) : SchedState :=
  if s.pending then s else { s with pending := true, tasks := s.tasks + 1 }

/-- A data mutation within the turn (the array at the source path is
replaced). -/
def setData (v : List String) (s : SchedState) : SchedState := { s with data := v }

/-- The queued microtask callback body: it first deletes the pending
flag, then re-checks that the node is still attached, and only then
re-renders from the data as it is NOW. -/
def runOneTask (s : SchedState) : SchedState :=
  if s.attached then
    { s with pending := false, tasks := s.tasks - 1,
             rendered := some s.data, rebuilds := s.rebuilds + 1 }
  else { s with pending := false, tasks := s.tasks - 1 }

/-- Drain the microtask queue at the end of the synchronous turn. -/
def drainF : Nat → SchedState → SchedState
  | 0, s => s
  | n + 1, s => if s.tasks = 0 then s else drainF n (runOneTask s)

/-- Run every queued microtask. -/
def drain (s : SchedState) : SchedState := drainF s.tasks s

/-- C7: (1) requesting a rebuild for a key with a pending rebuild is a
no-op; (2) the deferred callback always clears the pending flag first and
does no work when the node is detached; (3) two synchronous mutations of
the same repeat source in one turn produce exactly one rebuild, which
reflects only the final array state. -/
theorem C7_rebuild_coalescing :
    (∀ s : SchedState, s.pending = true → _scheduleForRebuild s = s)
    ∧ (∀ s : SchedState, (runOneTask s).pending = false
        ∧ (s.attached = false →
            (runOneTask s).rebuilds = s.rebuilds
            ∧ (runOneTask s).rendered = s.rendered))
    ∧ (∀ (s : SchedState) (v1 v2 : List String),
        s.pending = false → s.tasks = 0 → s.attached = true →
        (drain (_scheduleForRebuild (setData v2
            (_scheduleForRebuild (setData v1 s))))).rebuilds = s.rebuilds + 1
        ∧ (drain (_scheduleForRebuild (setData v2
            (_scheduleForRebuild (setData v1 s))))).rendered = some v2
        ∧ (drain (_scheduleForRebuild (setData v2
            (_scheduleForRebuild (setData v1 s))))).pending = false
        ∧ (drain (_scheduleForRebuild (setData v2
            (_scheduleForRebuild (setData v1 s))))).tasks = 0) := by
  refine ⟨?_, ?_, ?_⟩
  · intro s hp
    simp [_scheduleForRebuild, hp]
  · intro s
    constructor
    · unfold runOneTask
      split <;> rfl
    · intro hdet
      unfold runOneTask
      rw [if_neg (by simp [hdet])]
      constructor <;> rfl
  · intro s v1 v2 hp ht hat
    have h1 : _scheduleForRebuild (setData v1 s)
        = { s with data := v1, pending := true, tasks := 1 } := by
      simp [_scheduleForRebuild, setData, hp, ht]
    rw [h1]
    have h2 : setData v2 { s with data := v1, pending := true, tasks := 1 }
        = { s with data := v2, pending := true, tasks := 1 } := rfl
    rw [h2]
    have h3 : _scheduleForRebuild { s with data := v2, pending := true, tasks := 1 }
        = { s with data := v2, pending := true, tasks := 1 } := by
      simp [_scheduleForRebuild]
    rw [h3]
    have h4 : drain { s with data := v2, pending := true, tasks := 1 }
        = { s with data := v2, pending := false, tasks := 0, rendered := some v2, rebuilds := s.rebuilds + 1 } := by
      show drainF 1 _ = _
      unfold drainF
      rw [if_neg (by simp)]
      unfold runOneTask
      rw [if_pos (by simp [hat])]
      show drainF 0 _ = _
      rfl
    rw [h4]
    exact ⟨rfl, rfl, rfl, rfl⟩

/-- C7, witness: the coalescing scenario at a concrete initial state with
mutations to `["a"]` then `["b"]`. -/
theorem C7_rebuild_coalescing_witness :
    (drain (_scheduleForRebuild (setData ["b"] (_scheduleForRebuild (setData ["a"]
        (SchedState.mk false 0 true [] none 0)))))).rebuilds
      = (SchedState.mk false 0 true [] none 0).rebuilds + 1
    ∧ (drain (_scheduleForRebuild (setData ["b"] (_scheduleForRebuild (setData ["a"]
        (SchedState.mk false 0 true [] none 0)))))).rendered = some ["b"] := by
  have h := C7_rebuild_coalescing.2.2 (SchedState.mk false 0 true [] none 0)
    ["a"] ["b"] rfl rfl rfl
  exact ⟨h.1, h.2.1⟩

/-! ## Claim C8: the select-model renderer -/

instance : Inhabited JSVal := ⟨JSVal.undef⟩

/-- JS `String(v)` on our value model. -/
def jsToString : JSVal → String
  | JSVal.undef => "undefined"
  | JSVal.nullV => "null"
  | JSVal.nan => "NaN"
  | JSVal.boolV true => "true"
  | JSVal.boolV false => "false"
  | JSVal.numV n => toString n
  | JSVal.strV s => s
  | JSVal.obj _ => "[object Object]"

/-- The `<select>` DOM collaborator: its option list (value, disabled)
in document order and the selected index (`none` models
`selectedIndex = -1`). -/
structure SelectEl where
  opts : List (String × Bool)
  selectedIndex : Option Nat
  deriving DecidableEq, Repr

/-- Index of the first option whose value equals `v`. -/
def firstMatchIdx (v : String) : List (String × Bool) → Option Nat
  | [] => none
  | o :: os => if o.1 = v then some 0 else (firstMatchIdx v os).map (· + 1)

/-- The `HTMLSelectElement.value` setter per the HTML standard: select
the first option whose value equals the assigned string — regardless of
its disabled state — or clear the selection when none matches. -/
def domSetValue (el : SelectEl) (v : String) : SelectEl :=
  { el with selectedIndex := firstMatchIdx v el.opts }

/-- The `HTMLSelectElement.value` getter: the selected option's value,
or the empty string when nothing is selected. -/
def domGetValue (el : SelectEl) : String :=
  match el.selectedIndex with
  | none => ""
  | some i => ((el.opts.get? i).map Prod.fst).getD ""

/-- An `ez` select model: a `selectedValue` scalar plus an `options`
array of `[value, enabled]` tuples (tuples are JS arrays). -/
structure SelectModel where
  selectedValue : JSVal
  options : List (List JSVal)
  deriving DecidableEq, Repr

/-- The option built from one valid tuple: `value = String(entry[0])`,
`disabled = !(entry[1] === true)`. -/
def optionOfTuple (entry : List JSVal) : String × Bool :=
  (jsToString (entry.get! 0), !(jsStrictEq (entry.get! 1) (JSVal.boolV true)))

/-- One step of the option-building loop: invalid tuples (fewer than two
entries) are skipped with a debug-only warning; valid ones append an
option. -/
def selOptStep (debug : Bool) (acc : List (String × Bool) × List String)
    (entry : List JSVal) : List (String × Bool) × List String :=
  if entry.length < 2 then
    (acc.1, acc.2 ++ (if debug then ["ezBind <select>: invalid option tuple"] else []))
  else (acc.1 ++ [optionOfTuple entry], acc.2)

/-- `_rebuildSelectFromModel`: clears the option list, regenerates one
option per valid tuple, assigns the element's value from
`selectedValue` (`""` for null/undefined), and — when the requested
value is nonempty but the element's value afterwards differs — logs a
debug-only warning and sets `selectedIndex = -1`.  Returns the element
state and the diagnostics emitted. -/
def _rebuildSelectFromModel (debug : Bool) (model : SelectModel) :
    SelectEl × List String :=
  let selectedValue :=
    if model.selectedValue = JSVal.undef ∨ model.selectedValue = JSVal.nullV then ""
    else jsToString model.selectedValue
  let built := model.options.foldl (selOptStep debug) ([], [])
  let el1 := domSetValue { opts := built.1, selectedIndex := none } selectedValue
  if selectedValue ≠ "" ∧ domGetValue el1 ≠ selectedValue then
    ({ el1 with selectedIndex := none },
      built.2 ++ (if debug then ["ezBind <select>: selectedValue invalid or disabled"] else []))
  else (el1, built.2)

theorem selOptStep_all_valid (debug : Bool) :
    ∀ (opts : List (List JSVal)) (acc : List (String × Bool) × List String),
      (∀ e ∈ opts, ¬ e.length < 2) →
      opts.foldl (selOptStep debug) acc = (acc.1 ++ opts.map optionOfTuple, acc.2) := by
  intro opts
  induction opts with
  | nil => intro acc _; simp
  | cons e es ih =>
    intro acc h
    rw [List.foldl_cons]
    rw [show selOptStep debug acc e = (acc.1 ++ [optionOfTuple e], acc.2) by
      unfold selOptStep
      rw [if_neg (h e (by simp))]]
    rw [ih _ (fun e' he' => h e' (by simp [he']))]
    simp

theorem firstMatchIdx_isSome {v : String} :
    ∀ (opts : List (String × Bool)),
      (firstMatchIdx v opts).isSome ↔ ∃ o ∈ opts, o.1 = v := by
  intro opts
  induction opts with
  | nil => simp [firstMatchIdx]
  | cons o os ih =>
    unfold firstMatchIdx
    by_cases h : o.1 = v
    · simp [h]
    · rw [if_neg h]
      simp only [Option.isSome_map']
      rw [ih]
      simp [h]

theorem firstMatchIdx_get {v : String} :
    ∀ (opts : List (String × Bool)) (i : Nat), firstMatchIdx v opts = some i →
      (opts.get? i).map Prod.fst = some v := by
  intro opts
  induction opts with
  | nil => intro i h; simp [firstMatchIdx] at h
  | cons o os ih =>
    intro i h
    unfold firstMatchIdx at h
    by_cases ho : o.1 = v
    · rw [if_pos ho] at h
      cases h
      simpa using ho
    · rw [if_neg ho] at h
      rcases Option.map_eq_some'.mp h with ⟨j, hj, rfl⟩
      simpa using ih j hj

/-- C8, counterexample.  The claim says that whenever the requested
`selectedValue` is absent from the options OR maps to a disabled option,
the selection is cleared and a diagnostic is emitted.  With the spec's
own model (`selectedValue = "c"`, option `c` disabled) and debug logging
off: (1) the disabled option `c` IS selected (`selectedIndex = 2`, not
`-1`) and no diagnostic is emitted — setting `sel.value` selects a
disabled option, so the guard `sel.value !== selectedValue` never fires;
(2) for an absent value `"z"` the selection is cleared but the
diagnostic is gated behind `options.debug`, so none is emitted. -/
theorem C8_select_counterexample :
    ((_rebuildSelectFromModel false
        ⟨JSVal.strV "c",
         [[JSVal.strV "a", JSVal.boolV true], [JSVal.strV "b", JSVal.boolV true],
          [JSVal.strV "c", JSVal.boolV false]]⟩).1.selectedIndex = some 2
      ∧ (_rebuildSelectFromModel false
        ⟨JSVal.strV "c",
         [[JSVal.strV "a", JSVal.boolV true], [JSVal.strV "b", JSVal.boolV true],
          [JSVal.strV "c", JSVal.boolV false]]⟩).2 = [])
    ∧ ((_rebuildSelectFromModel false
        ⟨JSVal.strV "z",
         [[JSVal.strV "a", JSVal.boolV true], [JSVal.strV "b", JSVal.boolV true],
          [JSVal.strV "c", JSVal.boolV false]]⟩).1.selectedIndex = none
      ∧ (_rebuildSelectFromModel false
        ⟨JSVal.strV "z",
         [[JSVal.strV "a", JSVal.boolV true], [JSVal.strV "b", JSVal.boolV true],
          [JSVal.strV "c", JSVal.boolV false]]⟩).2 = []) := by
  refine ⟨⟨?_, ?_⟩, ?_, ?_⟩ <;> decide

/-- C8, amended: binding a select model fully regenerates the option
list — one option per (valid) tuple, with value `String(entry[0])` and
disabled exactly when the tuple's second entry is not `=== true` — and
assigns the element's selected value.  A nonempty requested value that
matches some option value selects the FIRST matching option, disabled or
not, with no diagnostic; a nonempty requested value matching no option
clears the selection (`selectedIndex = -1`) and emits a diagnostic only
when debug logging is enabled. -/
theorem C8_select_amended (debug : Bool) (model : SelectModel)
    (hvalid : ∀ e ∈ model.options, ¬ e.length < 2)
    (hsv : (if model.selectedValue = JSVal.undef ∨ model.selectedValue = JSVal.nullV
        then "" else jsToString model.selectedValue) ≠ "") :
    ((_rebuildSelectFromModel debug model).1.opts = model.options.map optionOfTuple)
    ∧ ((∃ o ∈ model.options.map optionOfTuple,
          o.1 = jsToString model.selectedValue) →
        domGetValue (_rebuildSelectFromModel debug model).1 = jsToString model.selectedValue
        ∧ (_rebuildSelectFromModel debug model).1.selectedIndex
            = firstMatchIdx (jsToString model.selectedValue) (model.options.map optionOfTuple)
        ∧ (_rebuildSelectFromModel debug model).2 = [])
    ∧ ((¬ ∃ o ∈ model.options.map optionOfTuple,
          o.1 = jsToString model.selectedValue) →
        (_rebuildSelectFromModel debug model).1.selectedIndex = none
        ∧ (_rebuildSelectFromModel debug model).2
            = (if debug then ["ezBind <select>: selectedValue invalid or disabled"]
               else [])) := by
  have hsv' : (if model.selectedValue = JSVal.undef ∨ model.selectedValue = JSVal.nullV
      then "" else jsToString model.selectedValue) = jsToString model.selectedValue := by
    split
    · rename_i hnull
      exact absurd (by simp [hnull]) hsv
    · rfl
  have hbuilt := selOptStep_all_valid debug model.options ([], []) hvalid
  unfold _rebuildSelectFromModel
  rw [hsv', hbuilt]
  simp only [List.nil_append]
  by_cases hmatch : ∃ o ∈ model.options.map optionOfTuple,
      o.1 = jsToString model.selectedValue
  · have hsome : (firstMatchIdx (jsToString model.selectedValue)
        (model.options.map optionOfTuple)).isSome :=
      (firstMatchIdx_isSome _).mpr hmatch
    obtain ⟨i, hi⟩ := Option.isSome_iff_exists.mp hsome
    have hget := firstMatchIdx_get _ i hi
    have hdom : domGetValue (domSetValue
        { opts := model.options.map optionOfTuple, selectedIndex := none }
        (jsToString model.selectedValue)) = jsToString model.selectedValue := by
      unfold domSetValue domGetValue
      simp only [hi]
      show (Option.map Prod.fst
          ((List.map optionOfTuple model.options).get? i)).getD ""
        = jsToString model.selectedValue
      rw [hget]
      rfl
    rw [if_neg (by simp [hdom])]
    refine ⟨rfl, fun _ => ⟨hdom, by simp [domSetValue, hi], rfl⟩, fun hc => absurd hmatch hc⟩
  · have hnone : firstMatchIdx (jsToString model.selectedValue)
        (model.options.map optionOfTuple) = none := by
      rcases h : firstMatchIdx (jsToString model.selectedValue)
          (model.options.map optionOfTuple) with _ | i
      · rfl
      · exact absurd ((firstMatchIdx_isSome _).mp (by simp [h])) hmatch
    have hdom : domGetValue (domSetValue
        { opts := model.options.map optionOfTuple, selectedIndex := none }
        (jsToString model.selectedValue)) = "" := by
      unfold domSetValue domGetValue
      simp [hnone]
    have hsv2 : jsToString model.selectedValue ≠ "" := hsv' ▸ hsv
    rw [if_pos ⟨hsv2, by rw [hdom]; exact fun h => hsv2 h.symm⟩]
    refine ⟨rfl, fun hc => absurd hc hmatch, fun _ => ⟨rfl, by simp⟩⟩

/-- C8, witness: the amended select semantics at the spec's example model
with `selectedValue = "b"`: three options regenerated, `"b"` selected. -/
theorem C8_select_amended_witness :
    ((_rebuildSelectFromModel false
        ⟨JSVal.strV "b",
         [[JSVal.strV "a", JSVal.boolV true], [JSVal.strV "b", JSVal.boolV true],
          [JSVal.strV "c", JSVal.boolV false]]⟩).1.opts
      = ([[JSVal.strV "a", JSVal.boolV true], [JSVal.strV "b", JSVal.boolV true],
          [JSVal.strV "c", JSVal.boolV false]] : List (List JSVal)).map optionOfTuple)
    ∧ domGetValue (_rebuildSelectFromModel false
        ⟨JSVal.strV "b",
         [[JSVal.strV "a", JSVal.boolV true], [JSVal.strV "b", JSVal.boolV true],
          [JSVal.strV "c", JSVal.boolV false]]⟩).1
      = jsToString (JSVal.strV "b") := by
  have h := C8_select_amended false
    ⟨JSVal.strV "b",
     [[JSVal.strV "a", JSVal.boolV true], [JSVal.strV "b", JSVal.boolV true],
      [JSVal.strV "c", JSVal.boolV false]]⟩ (by decide) (by decide)
  exact ⟨h.1, (h.2.1 (by decide)).1⟩

/-! ## Claim C9: wrapper identity caching -/

/-- The wrap-relevant state for ONE fixed raw nested object: its
`proxyCache` entry (a map from canonical path string to the proxy
created for that path, modelled as an association list in insertion
order), its `rawPaths` entry (the recorded alias path arrays), and the
source of fresh proxy identities. -/
structure WrapState where
  cache : List (List Char × Nat)
  aliases : List (List PKey)
  nextId : Nat
  deriving DecidableEq, Repr

/-- `_wrap(value, pathArr)` for this raw object: register the path in
`rawPaths`, then return the cached proxy for the canonical path key if
one exists, else create a fresh proxy, cache it under the key, and
return it. -/
def _wrap (pathArr : List PKey) (s : WrapState) : Nat × WrapState :=
  let s0 : WrapState := { s with aliases := _registerRawPath s.aliases pathArr }
  match s0.cache.find? (fun e => e.1 = pathToChars pathArr) with
  | some e => (e.2, s0)
  | none =>
    (s0.nextId,
      { s0 with cache := s0.cache ++ [(pathToChars pathArr, s0.nextId)],
                nextId := s0.nextId + 1 })

/-- The `get` trap, for a property holding a nested raw object, returns
`_wrap(out, pathArr.concat([prop]))`: reading the same property through
the same proxy always calls `_wrap` with identical arguments. -/
def getTrapWrap (pathArr : List PKey) (prop : String) (s : WrapState) : Nat × WrapState :=
  _wrap (pathArr ++ [PKey.str prop]) s

theorem registerRawPath_mem (aliases : List (List PKey)) (pathArr : List PKey) :
    (_registerRawPath aliases pathArr).any
      (fun a => pathToChars a = pathToChars pathArr) = true := by
  unfold _registerRawPath
  split
  · assumption
  · simp [List.any_append]

theorem registerRawPath_idem (aliases : List (List PKey)) (pathArr : List PKey) :
    _registerRawPath (_registerRawPath aliases pathArr) pathArr
      = _registerRawPath aliases pathArr := by
  show (if (_registerRawPath aliases pathArr).any
      (fun a => pathToChars a = pathToChars pathArr) = true then _ else _) = _
  rw [if_pos (registerRawPath_mem aliases pathArr)]

theorem find?_append_of_none {α : Type} (p : α → Bool) :
    ∀ (l₁ l₂ : List α), l₁.find? p = none → (l₁ ++ l₂).find? p = l₂.find? p := by
  intro l₁
  induction l₁ with
  | nil => intro l₂ _; rfl
  | cons a l ih =>
    intro l₂ h
    by_cases hp : p a = true
    · rw [List.find?_cons_of_pos _ hp] at h
      exact absurd h (by simp)
    · rw [List.find?_cons_of_neg _ (by simpa using hp)] at h
      rw [List.cons_append, List.find?_cons_of_neg _ (by simpa using hp)]
      exact ih l₂ h

/-- `_wrap` is idempotent as a state transformer, and returns the
identical proxy on a repeated call: calling `_wrap` again for the same
(raw object, path) pair returns the same wrapper and leaves the state
unchanged. -/
theorem wrap_wrap (pathArr : List PKey) (s : WrapState) :
    _wrap pathArr ((_wrap pathArr s).2) = _wrap pathArr s := by
  show _wrap pathArr ((_wrap pathArr s).2) = _wrap pathArr s
  unfold _wrap
  rcases hfind : (WrapState.mk s.cache (_registerRawPath s.aliases pathArr) s.nextId).cache.find?
      (fun e => e.1 = pathToChars pathArr) with _ | e
  · simp only [hfind]
    have hreg := registerRawPath_idem s.aliases pathArr
    simp only [hreg]
    have hfind2 : ((s.cache ++ [(pathToChars pathArr, s.nextId)]).find?
        (fun e => e.1 = pathToChars pathArr)) = some (pathToChars pathArr, s.nextId) := by
      rw [find?_append_of_none _ _ _ hfind]
      exact List.find?_cons_of_pos _ (by simp)
    simp only [hfind2]
  · simp only [hfind]
    have hreg := registerRawPath_idem s.aliases pathArr
    simp only [hreg, hfind]

/-- C9: two reads of the same property chain through the same path return
the identical wrapper reference — the second `get` through the same
proxy hits the `(raw object, path)` cache and also leaves the wrap state
untouched. -/
theorem C9_wrapper_identity (pathArr : List PKey) (prop : String) (s : WrapState) :
    (getTrapWrap pathArr prop ((getTrapWrap pathArr prop s).2)).1
        = (getTrapWrap pathArr prop s).1
    ∧ (getTrapWrap pathArr prop ((getTrapWrap pathArr prop s).2)).2
        = (getTrapWrap pathArr prop s).2 := by
  unfold getTrapWrap
  rw [wrap_wrap]
  exact ⟨rfl, rfl⟩

/-! ## Claim C10: prototype-chain keys in handler path resolution -/

/-- Values reachable while resolving an event-handler path on the data
root: `undefined`/`null` (merged — both are `== null`), other
primitives, plain data objects (own properties live in a heap),
`Object.prototype`, the `Object` constructor function, and user
functions stored in the data graph. -/
inductive DVal where
  | undef
  | prim
  | objV (id : Nat)
  | objectProto
  | objectCtor
  | fnV (id : Nat)
  deriving DecidableEq, Repr

/-- Heap of plain data objects: own properties per object id. -/
def DHeap := List (Nat × List (String × DVal))

/-- `cur == null` (loose): true for `undefined` and `null`. -/
def isNullish : DVal → Bool
  | DVal.undef => true
  | _ => false

/-- `typeof v === "function"`. -/
def isFunction : DVal → Bool
  | DVal.fnV _ => true
  | DVal.objectCtor => true
  | _ => false

/-- The filter of `_getAtPathSafe`:
`k === "__proto__" || k === "prototype" || k === "constructor"` (a
numeric segment is never `===` a string). -/
def bannedKey : PKey → Bool
  | PKey.str s =>
    decide (s = "__proto__") || decide (s = "prototype") || decide (s = "constructor")
  | PKey.num _ => false

/-- The property name used for the actual access (JS coerces numeric
keys to their decimal string). -/
def pkeyName : PKey → String
  | PKey.str s => s
  | PKey.num n => String.mk (natRepr n)

def heapFields (h : DHeap) (id : Nat) : List (String × DVal) :=
  match (h : List (Nat × List (String × DVal))).find? (fun e => e.1 = id) with
  | some e => e.2
  | none => []

/-- JS property read `cur[k]` for the values above: own property first,
then the prototype chain of a plain object, of which we model the
security-relevant members — `constructor` (the `Object` constructor, a
function) and `__proto__` (`Object.prototype`); a plain object has no
`prototype` property.  Reads on primitives and functions yield
`undefined`. -/
def getProp (h : DHeap) : DVal → String → DVal
  | DVal.objV id, k =>
    (match (heapFields h id).find? (fun e => e.1 = k) with
     | some e => e.2
     | none =>
       if k = "constructor" then DVal.objectCtor
       else if k = "__proto__" then DVal.objectProto
       else DVal.undef)
  | DVal.objectProto, k =>
    if k = "constructor" then DVal.objectCtor else DVal.undef
  | _, _ => DVal.undef

/-- `_getAtPathSafe`: walk the path, returning `undefined` as soon as the
current value is nullish or the NEXT key is one of the banned
prototype-chain keys. -/
def _getAtPathSafe (h : DHeap) : DVal → List PKey → DVal
  | cur, [] => cur
  | cur, k :: ks =>
    if isNullish cur then DVal.undef
    else if bannedKey k then DVal.undef
    else _getAtPathSafe h (getProp h cur (pkeyName k)) ks

/-- The loose bracket branch of `_parsePathLoose`: like `parseBracket`,
but when no digits follow the `[` an identifier run is accepted as a
key. -/
def parseBracketLoose (l : List Char) : Option PKey × List Char :=
  let l1 := skipWS l
  match l1 with
  | [] => (none, [])
  | c :: cs =>
    if c = '"' ∨ c = squote then
      let res := scanQuoted c cs []
      (some (PKey.str (String.mk res.1)), skipRBracket (skipWS res.2))
    else
      let digits := l1.takeWhile isDigitCh
      if digits.isEmpty ∧ isIdentStart c = true then
        (some (PKey.str (String.mk (l1.takeWhile isIdentChar))),
          skipRBracket (skipWS (l1.dropWhile isIdentChar)))
      else
        (if digits.isEmpty then none else some (PKey.num (digitsToNat digits)),
          skipRBracket (skipWS (l1.dropWhile isDigitCh)))

/-- Fuelled main loop of `_parsePathLoose` (same skeleton as
`parseCharsF`, but brackets may hold identifiers). -/
def parseLooseF : Nat → List Char → List PKey
  | 0, _ => []
  | _, [] => []
  | fuel + 1, c :: cs =>
    if c = '.' then parseLooseF fuel cs
    else if c = '[' then
      match (parseBracketLoose cs).1 with
      | some k => k :: parseLooseF fuel (parseBracketLoose cs).2
      | none => parseLooseF fuel (parseBracketLoose cs).2
    else if isIdentStart c then
      PKey.str (String.mk ((c :: cs).takeWhile isIdentChar))
        :: parseLooseF fuel ((c :: cs).dropWhile isIdentChar)
    else parseLooseF fuel cs

/-- `s.replace(/\(\)\s*;?\s*$/, "")`: strip one trailing `()`, optionally
followed by a semicolon, with whitespace allowed around them. -/
def stripCallSuffix (l : List Char) : List Char :=
  let r1 := l.reverse.dropWhile jsWhitespace
  let r2 := match r1 with
    | ';' :: t => t.dropWhile jsWhitespace
    | _ => r1
  match r2 with
  | ')' :: '(' :: t => t.reverse
  | _ => l

/-- `if (s.indexOf("system.data.") === 0) s = s.substring(12)`. -/
def stripDataPrefixLoose (l : List Char) : List Char :=
  if l.take 12 = "system.data.".data then l.drop 12 else l

/-- `_parsePathLoose`: trim, strip an optional `system.data.` head and an
optional trailing call suffix, then scan. -/
def _parsePathLoose (s : String) : List PKey :=
  let t := stripCallSuffix (stripDataPrefixLoose (jsTrim s.data))
  parseLooseF t.length t

instance : Inhabited PKey := ⟨PKey.str ""⟩

/-- The function-resolution core of `_executeCodeString`: parse the
handler code string loosely; the LAST key is split off and the parent is
resolved through `_getAtPathSafe`; the final key is then read directly
off the parent (`parent[fnKey]`, not filtered), and the handler is
invoked only when that read yields a function.  Returns
`some (parent, fn)` exactly when a call `fn.call(parent, …)` happens.
(The source trims the raw string first; `_parsePathLoose` trims again,
making the outer trim redundant, and its empty parse coincides with the
early return on an empty string.) -/
def _executeCodeString (h : DHeap) (rootData : DVal) (codeString : String) :
    Option (DVal × DVal) :=
  let pathArr := _parsePathLoose codeString
  if pathArr = [] then none
  else
    let fnKey := pathArr.getLast!
    let parentPath := pathArr.dropLast
    let parent := if parentPath = [] then rootData else _getAtPathSafe h rootData parentPath
    let fn := if isNullish parent then DVal.undef else getProp h parent (pkeyName fnKey)
    if isFunction fn then some (parent, fn) else none

/-- C10, counterexample.  The claim says that if ANY segment of the
resolved handler path is `__proto__`, `prototype` or `constructor`,
resolution yields `undefined` and no function is invoked.  But only the
segments BEFORE the last go through `_getAtPathSafe`; the final key is
read directly (`parent[fnKey]`).  For the markup-supplied handler string
`"constructor"` on a plain data root, the read reaches the `Object`
constructor through the prototype chain, `typeof fn === "function"`
holds, and the constructor IS invoked. -/
theorem C10_proto_counterexample :
    _executeCodeString [(0, [])] (DVal.objV 0) "constructor"
        = some (DVal.objV 0, DVal.objectCtor)
    ∧ ¬ _executeCodeString [(0, [])] (DVal.objV 0) "constructor" = none := by
  constructor
  · decide
  · decide

theorem getAtPathSafe_banned (h : DHeap) :
    ∀ (path : List PKey) (cur : DVal), (∃ k ∈ path, bannedKey k = true) →
      _getAtPathSafe h cur path = DVal.undef := by
  intro path
  induction path with
  | nil => intro cur hk; simp at hk
  | cons k ks ih =>
    intro cur hk
    unfold _getAtPathSafe
    split
    · rfl
    · split
      · rfl
      · rename_i hnotban
        rcases hk with ⟨k', hk', hban⟩
        rcases List.mem_cons.mp hk' with h' | h'
        · subst h'; exact absurd hban (by simpa using hnotban)
        · exact ih _ ⟨k', h', hban⟩

/-- C10, amended: the banned-key filter protects every segment BEFORE
the last: if any non-final segment of the parsed handler path is
`__proto__`, `prototype` or `constructor`, `_getAtPathSafe` resolves the
parent to `undefined` and no function is invoked.  The FINAL segment is
read directly off the parent, so a final `constructor` segment can
resolve to a constructor function and be invoked (see the
counterexample). -/
theorem C10_proto_amended (h : DHeap) (rootData : DVal) (codeString : String)
    (hban : ∃ k ∈ (_parsePathLoose codeString).dropLast, bannedKey k = true) :
    (∀ cur, _getAtPathSafe h cur (_parsePathLoose codeString).dropLast = DVal.undef)
    ∧ _executeCodeString h rootData codeString = none := by
  have hne : (_parsePathLoose codeString).dropLast ≠ [] := by
    rcases hban with ⟨k, hk, _⟩
    intro hc
    rw [hc] at hk
    simp at hk
  have hpne : _parsePathLoose codeString ≠ [] := by
    intro hc
    rw [hc] at hne
    simp at hne
  constructor
  · intro cur
    exact getAtPathSafe_banned h _ cur hban
  · unfold _executeCodeString
    simp [hpne, hne, getAtPathSafe_banned h _ rootData hban, isNullish, isFunction]

/-- C10, witness: the amended protection at the concrete handler string
`"__proto__.polluted"` — the non-final `__proto__` segment resolves the
parent to `undefined` and nothing is invoked. -/
theorem C10_proto_amended_witness :
    (∀ cur, _getAtPathSafe [(0, [])] cur
        (_parsePathLoose "__proto__.polluted").dropLast = DVal.undef)
    ∧ _executeCodeString [(0, [])] (DVal.objV 0) "__proto__.polluted" = none :=
  C10_proto_amended [(0, [])] (DVal.objV 0) "__proto__.polluted" (by decide)

end EzWeb
